import Mathlib

attribute [local semireducible] Rat.add Rat.sub Rat.mul

/-!
Shallow embedding of `canCoverAll` (src/task-2.js) and a verification of its
coverage-decision algorithm.

The program decides whether the union of axis-aligned rectangles ("cameras",
each `{dMin, dMax, lMin, lMax}`) covers the target rectangle
`[distanceMin, distanceMax] × [lightMin, lightMax]`.  It filters and clips the
cameras to the target, builds add/remove events on the distance axis, compresses
the light coordinates, and sweeps a segment tree that tracks covered light
length.

Modelling notes, all from the source:
* JS numbers are modelled by `ℚ` (the spec assumes exact inputs: integers or
  exactly representable rationals).
* The two JS arrays `coverCount` / `coveredLen` (allocated as `new Array(4*n)`)
  are modelled as total maps `Nat → Int` / `Nat → ℚ` initialised to `0`.  A JS
  array is an index→value map; every index the algorithm touches lies below
  `4*n` (the standard segment-tree bound), where the JS array holds the same
  `0`-initialised entries.
* `events.sort((a, b) => a.dist - b.dist)` is a stable sort by `dist`; it is
  modelled by `List.insertionSort` with `a.dist ≤ b.dist`, which is also stable,
  so both produce the same list.
* `Array.from(new Set(...)).sort(...)` deduplicates and then sorts; since the
  result is sorted and duplicate-free it does not depend on the pre-sort order,
  and is modelled by `List.dedup` followed by `insertionSort (· ≤ ·)`.
* `lightIndex.get(v)` (a `Map` lookup) is modelled by `List.indexOf`; the map is
  built from the de-duplicated sorted list, so for every value that occurs the
  two agree.
* `(left + right) >> 1` is floor division by two; `left` and `right` are
  nonnegative at every reachable call, where `Int` division agrees with it.
-/

/-- Camera record `{dMin, dMax, lMin, lMax}` from task-2.js. -/
structure Cam where
  dMin : ℚ
  dMax : ℚ
  lMin : ℚ
  lMax : ℚ
deriving DecidableEq, Repr

/-- Sweep event `{dist, type, lMin, lMax}`; `type` is `0` (boundary), `+1` (add)
or `-1` (remove). -/
structure Ev where
  dist : ℚ
  type : Int
  lMin : ℚ
  lMax : ℚ
deriving DecidableEq, Repr

/-- Overlap test of task-2.js lines 36–41: a camera survives the filter iff it
meets the target on both axes. -/
def camOverlaps (d0 d1 l0 l1 : ℚ) (c : Cam) : Bool :=
  c.dMax ≥ d0 ∧ c.dMin ≤ d1 ∧ c.lMax ≥ l0 ∧ c.lMin ≤ l1

/-- Clamp of task-2.js lines 42–47: a surviving camera is clipped to the target
bounds on both axes. -/
def clipCam (d0 d1 l0 l1 : ℚ) (c : Cam) : Cam :=
  ⟨max d0 c.dMin, min d1 c.dMax, max l0 c.lMin, min l1 c.lMax⟩

/-- The `validCams` list of task-2.js lines 33–49: filter then clip, preserving
input order. -/
def validCams (d0 d1 l0 l1 : ℚ) (cams : List Cam) : List Cam :=
  (cams.filter (camOverlaps d0 d1 l0 l1)).map (clipCam d0 d1 l0 l1)

/-- The two events a clipped camera generates (task-2.js lines 62–75): add
coverage at `dMin`, remove it at `dMax`. -/
def camEvents (c : Cam) : List Ev :=
  [⟨c.dMin, 1, c.lMin, c.lMax⟩, ⟨c.dMax, -1, c.lMin, c.lMax⟩]

/-- The unsorted event list of task-2.js lines 58–75: two boundary events at the
target distance extremes, then the camera events in input order. -/
def buildEvents (d0 d1 : ℚ) (vc : List Cam) : List Ev :=
  ⟨d0, 0, 0, 0⟩ :: ⟨d1, 0, 0, 0⟩ :: vc.flatMap camEvents

/-- Stable sort by distance (task-2.js line 78). -/
def sortEvents (es : List Ev) : List Ev :=
  es.insertionSort (fun a b => a.dist ≤ b.dist)

/-- The raw light coordinates of task-2.js lines 82–87: target light bounds plus
every clipped camera's light bounds. -/
def lightValues (l0 l1 : ℚ) (vc : List Cam) : List ℚ :=
  l0 :: l1 :: vc.flatMap (fun c => [c.lMin, c.lMax])

/-- Sorted, duplicate-free coordinate list (task-2.js line 89). -/
def uniqueSorted (vals : List ℚ) : List ℚ :=
  vals.dedup.insertionSort (· ≤ ·)

/-- The `lightIndex` map of task-2.js lines 92–95: position of a value in the
sorted duplicate-free coordinate list. -/
def lightIdx (coords : List ℚ) (v : ℚ) : Int :=
  coords.indexOf v

/-- Array access `coords[i]` for the interval-width computation of task-2.js
line 206 (every reachable access is in bounds). -/
def coordAt (coords : List ℚ) (i : Int) : ℚ :=
  coords.getD i.toNat 0

/-- Recompute step of task-2.js lines 203–214: after an update touching node
`idx`, its cached length is the full span width if `coverCount > 0`, `0` at an
uncovered leaf, and the children's sum otherwise. -/
def recomputeLen (coords : List ℚ) (cover : Nat → Int) (clen : Nat → ℚ)
    (idx : Nat) (left right : Int) : Nat → ℚ :=
  Function.update clen idx
    (if cover idx > 0 then coordAt coords (right + 1) - coordAt coords left
     else if left = right then 0
     else clen (2 * idx) + clen (2 * idx + 1))

/-- The recursive `_updateRange` of task-2.js lines 188–215, returning the new
`(coverCount, coveredLen)` pair.  The recursion is driven by a fuel parameter so
that it is structural; the recursion depth is bounded by the span size
`(right - left).toNat`, and every caller supplies more fuel than that, so the
fuel never runs out (every lemma below carries this bound as a hypothesis). -/
def updateRange (coords : List ℚ) :
    Nat → (Nat → Int) → (Nat → ℚ) → Nat → Int → Int → Int → Int → Int →
    (Nat → Int) × (Nat → ℚ)
  | 0, cover, clen, _, _, _, _, _, _ => (cover, clen)
  | fuel + 1, cover, clen, idx, left, right, ql, qr, delta =>
    if ql > right ∨ qr < left then
      (cover, clen)
    else if ql ≤ left ∧ right ≤ qr then
      let cover' := Function.update cover idx (cover idx + delta)
      (cover', recomputeLen coords cover' clen idx left right)
    else
      let mid := (left + right) / 2
      let p1 := updateRange coords fuel cover clen (2 * idx) left mid ql qr delta
      let p2 := updateRange coords fuel p1.1 p1.2 (2 * idx + 1) (mid + 1) right ql qr delta
      (p2.1, recomputeLen coords p2.1 p2.2 idx left right)

/-- The `update` entry point of task-2.js lines 181–186: range
`[uLeft, uRight)` in compressed indices, hence `uRight - 1` as the inclusive
upper node bound.  `coords.length + 1` exceeds the recursion depth bound. -/
def treeUpdate (coords : List ℚ) (cover : Nat → Int) (clen : Nat → ℚ)
    (uLeft uRight delta : Int) : (Nat → Int) × (Nat → ℚ) :=
  if uLeft > uRight then (cover, clen)
  else
    updateRange coords (coords.length + 1) cover clen 1 0 ((coords.length : Int) - 2)
      uLeft (uRight - 1) delta

/-- The `_build` recursion of task-2.js lines 162–173; it only writes zeros into
the zero-initialised `coveredLen` map.  Fuel-driven like `updateRange`. -/
def buildAux : Nat → (Nat → ℚ) → Nat → Int → Int → (Nat → ℚ)
  | 0, clen, _, _, _ => clen
  | fuel + 1, clen, idx, left, right =>
    if left > right then clen
    else if left = right then Function.update clen idx 0
    else
      let mid := (left + right) / 2
      let clen1 := buildAux fuel clen (2 * idx) left mid
      let clen2 := buildAux fuel clen1 (2 * idx + 1) (mid + 1) right
      Function.update clen2 idx 0

/-- Processing of one event by the sweep body (task-2.js lines 123–131): an add
or remove event updates the tree over its light range with `+1` or `-1`; a
boundary event leaves the state unchanged. -/
def stepState (coords : List ℚ) (st : (Nat → Int) × (Nat → ℚ)) (e : Ev) :
    (Nat → Int) × (Nat → ℚ) :=
  if e.type ≠ 0 then
    treeUpdate coords st.1 st.2 (lightIdx coords e.lMin) (lightIdx coords e.lMax)
      (if e.type > 0 then 1 else -1)
  else st

/-- One step of the sweep of task-2.js lines 106–134.  For each event: if there
is a nonempty distance gap since the previous event (clamped to the target), the
root's covered length must reach the required total, else the sweep fails; then
add/remove events update the tree and the previous distance advances. -/
def sweep (d0 d1 totalLen : ℚ) (coords : List ℚ) :
    ℚ → (Nat → Int) → (Nat → ℚ) → List Ev → Bool
  | _, _, _, [] => true
  | prev, cover, clen, e :: es =>
    if e.dist > prev ∧ min e.dist d1 > max prev d0 ∧ clen 1 < totalLen then
      false
    else
      let st := stepState coords (cover, clen) e
      sweep d0 d1 totalLen coords e.dist st.1 st.2 es

/-- The entry point `canCoverAll(distanceMin, distanceMax, lightMin, lightMax,
cameras)` of task-2.js lines 24–138. -/
def canCoverAll (distanceMin distanceMax lightMin lightMax : ℚ) (cameras : List Cam) : Bool :=
  if distanceMin = distanceMax ∧ lightMin = lightMax then true
  else if cameras.length = 0 then false
  else
    let vc := validCams distanceMin distanceMax lightMin lightMax cameras
    if vc.length = 0 then false
    else
      let events := sortEvents (buildEvents distanceMin distanceMax vc)
      let coords := uniqueSorted (lightValues lightMin lightMax vc)
      let totalLen := lightMax - lightMin
      let clen0 := buildAux (coords.length + 1) (fun _ => 0) 1 0 ((coords.length : Int) - 2)
      sweep distanceMin distanceMax totalLen coords (events.headD ⟨0, 0, 0, 0⟩).dist
        (fun _ => 0) clen0 events

/-- Pointwise coverage: camera `c` covers the point `(x, y)` of the
distance × light plane. -/
def Cam.covers (c : Cam) (x y : ℚ) : Prop :=
  c.dMin ≤ x ∧ x ≤ c.dMax ∧ c.lMin ≤ y ∧ y ≤ c.lMax

instance (c : Cam) (x y : ℚ) : Decidable (c.covers x y) := by
  unfold Cam.covers; infer_instance

/-- The specification predicate: the union of the cameras contains every point
of the closed target rectangle. -/
def CoversTarget (d0 d1 l0 l1 : ℚ) (cams : List Cam) : Prop :=
  ∀ x y, d0 ≤ x → x ≤ d1 → l0 ≤ y → y ≤ l1 → ∃ c ∈ cams, c.covers x y

/-- Well-formedness of a rectangle: nonempty on both axes. -/
def Cam.WF (c : Cam) : Prop :=
  c.dMin ≤ c.dMax ∧ c.lMin ≤ c.lMax

instance (c : Cam) : Decidable c.WF := by
  unfold Cam.WF; infer_instance

/-! ### Union length over elementary light intervals

`elemCov` says that elementary interval `j` (the span from `coords[j]` to
`coords[j+1]`) lies inside some interval of the list; `unionLen` sums the
lengths of the covered elementary intervals between node bounds `l` and `r`.
For intervals whose endpoints occur in `coords` this is exactly the measure of
their union restricted to the node's span. -/

def elemCov (coords : List ℚ) (rs : List (ℚ × ℚ)) (j : Int) : Prop :=
  ∃ r ∈ rs, r.1 ≤ coordAt coords j ∧ coordAt coords (j + 1) ≤ r.2

instance (coords : List ℚ) (rs : List (ℚ × ℚ)) (j : Int) : Decidable (elemCov coords rs j) := by
  unfold elemCov; infer_instance

def unionLen (coords : List ℚ) (rs : List (ℚ × ℚ)) (l r : Int) : ℚ :=
  ∑ j in Finset.Icc l r,
    if elemCov coords rs j then coordAt coords (j + 1) - coordAt coords j else 0

/-! ### Elementary facts about the entry point -/

theorem canCoverAll_deg (x y : ℚ) (cams : List Cam) : canCoverAll x x y y cams = true := by
  unfold canCoverAll
  simp

theorem canCoverAll_vcnil (d0 d1 l0 l1 : ℚ) (cams : List Cam)
    (h : ¬(d0 = d1 ∧ l0 = l1)) (hv : validCams d0 d1 l0 l1 cams = []) :
    canCoverAll d0 d1 l0 l1 cams = false := by
  unfold canCoverAll
  rw [if_neg h]
  rcases cams with _ | ⟨c, cams⟩
  · simp
  · simp [hv]

theorem canCoverAll_true_vc_ne (d0 d1 l0 l1 : ℚ) (cams : List Cam)
    (h : ¬(d0 = d1 ∧ l0 = l1)) (ht : canCoverAll d0 d1 l0 l1 cams = true) :
    validCams d0 d1 l0 l1 cams ≠ [] := by
  intro hv
  rw [canCoverAll_vcnil d0 d1 l0 l1 cams h hv] at ht
  exact Bool.false_ne_true ht

/-! ### Claim C3, C4, C9 theorems and the C1, C2, C5, C8 counterexamples -/

/-- C3: for every rectangle list (including the empty list) and all values `x`
and `y`, `coverage_check(x, x, y, y, rectangles)` returns `true`: a target
degenerate on both axes is trivially covered, before any other processing. -/
theorem coverage_check_degenerate_target (x y : ℚ) (cams : List Cam) :
    canCoverAll x x y y cams = true :=
  canCoverAll_deg x y cams

/-- C4: for every non-degenerate target (`d0 < d1` or `l0 < l1`), the empty
rectangle list yields `false`, and more generally whenever the filter step
leaves no clipped rectangle the result is `false`. -/
theorem coverage_check_empty_input (d0 d1 l0 l1 : ℚ) (cams : List Cam)
    (h : d0 < d1 ∨ l0 < l1) :
    canCoverAll d0 d1 l0 l1 [] = false ∧
    (validCams d0 d1 l0 l1 cams = [] → canCoverAll d0 d1 l0 l1 cams = false) := by
  have hne : ¬(d0 = d1 ∧ l0 = l1) := by
    rintro ⟨rfl, rfl⟩
    rcases h with h | h <;> exact lt_irrefl _ h
  exact ⟨canCoverAll_vcnil d0 d1 l0 l1 [] hne rfl,
    fun hv => canCoverAll_vcnil d0 d1 l0 l1 cams hne hv⟩

/-- Witness for C4 at a concrete input: target `[0,1] × [0,1]`, and a rectangle
list whose only member fails the overlap test. -/
theorem coverage_check_empty_input_witness :
    ((0:ℚ) < 1 ∨ (0:ℚ) < 1) ∧
    canCoverAll 0 1 0 1 [] = false ∧
    canCoverAll 0 1 0 1 [⟨5, 6, 0, 1⟩] = false :=
  ⟨Or.inl (by norm_num),
    (coverage_check_empty_input 0 1 0 1 [⟨5, 6, 0, 1⟩] (Or.inl (by norm_num))).1,
    (coverage_check_empty_input 0 1 0 1 [⟨5, 6, 0, 1⟩] (Or.inl (by norm_num))).2 (by decide)⟩

/-- C9: end-to-end scenario A: the three rectangles cover the target
`[0,20] × [0,10]`, with exact adjacency at light `5` and distance `10`. -/
theorem coverage_check_scenario_A :
    canCoverAll 0 20 0 10 [⟨0, 10, 0, 5⟩, ⟨0, 10, 5, 10⟩, ⟨10, 20, 0, 10⟩] = true := by
  decide

/-- Counterexample to C1 as stated: the target `[5,5] × [0,10]` is well formed
(`distanceMin ≤ distanceMax`, `lightMin ≤ lightMax`), the single rectangle is
well formed, `coverage_check` returns `true`, yet the rectangle does not cover
the target (the point `(5, 7)` is uncovered). -/
theorem coverage_check_iff_counterexample :
    ((5:ℚ) ≤ 5 ∧ (0:ℚ) ≤ 10 ∧ Cam.WF ⟨0, 10, 0, 3⟩) ∧
    canCoverAll 5 5 0 10 [⟨0, 10, 0, 3⟩] = true ∧
    ¬ CoversTarget 5 5 0 10 [⟨0, 10, 0, 3⟩] := by
  refine ⟨by decide, by decide, fun h => ?_⟩
  obtain ⟨c, hc, hcov⟩ := h 5 7 (by norm_num) (by norm_num) (by norm_num) (by norm_num)
  rw [List.mem_singleton] at hc
  subst hc
  exact absurd hcov.2.2.2 (by norm_num)

/-- Counterexample to C2 as stated: the rectangle `⟨6, 4, 0, 10⟩` has
`dMin > dMax`, yet no error interrupts the computation; the invalid rectangle is
clipped, processed, and even flips the result from `true` to `false`. -/
theorem coverage_check_validation_counterexample :
    ¬ Cam.WF ⟨6, 4, 0, 10⟩ ∧
    canCoverAll 0 10 0 10 [⟨0, 10, 0, 10⟩] = true ∧
    canCoverAll 0 10 0 10 [⟨0, 10, 0, 10⟩, ⟨6, 4, 0, 10⟩] = false := by
  decide

/-- Counterexample to C5 as stated: appending the well-formed rectangle
`⟨0, 10, 4, 4⟩` to a list containing the invalid rectangle `⟨8, 2, 1, 5⟩` flips
the result from `true` to `false`. -/
theorem coverage_monotonicity_counterexample :
    Cam.WF ⟨0, 10, 4, 4⟩ ∧
    canCoverAll 0 10 0 8 [⟨0, 10, 2, 8⟩, ⟨0, 10, 0, 2⟩, ⟨8, 2, 1, 5⟩] = true ∧
    canCoverAll 0 10 0 8
      ([⟨0, 10, 2, 8⟩, ⟨0, 10, 0, 2⟩, ⟨8, 2, 1, 5⟩] ++ [⟨0, 10, 4, 4⟩]) = false := by
  decide

/-- Counterexample to C8 as stated: over coordinates `[0, 1, 2]`, one update
adds an envelope covering the whole light range `[0, 2)`.  The root (node `1`)
caches the exact covered length `2`, but the left child (node `2`, spanning
`[0, 1]`) still caches `0` although the active envelope covers length `1` of its
span: `coveredLength` at a non-root node need not equal the exact covered
length within that node's span. -/
theorem segment_tree_node_exact_counterexample :
    ((treeUpdate [0, 1, 2] (fun _ => 0) (buildAux 4 (fun _ => 0) 1 0 1) 0 2 1).2 2 = 0 ∧
      unionLen [0, 1, 2] [(0, 2)] 0 0 = 1) ∧
    ((treeUpdate [0, 1, 2] (fun _ => 0) (buildAux 4 (fun _ => 0) 1 0 1) 0 2 1).2 1 = 2 ∧
      unionLen [0, 1, 2] [(0, 2)] 0 1 = 2) := by
  decide

/-! ### Filter and clip: characterization and irrelevance of dropped rectangles -/

theorem validCams_filterMap (d0 d1 l0 l1 : ℚ) (cams : List Cam) :
    validCams d0 d1 l0 l1 cams = cams.filterMap (fun r =>
      if r.dMax ≥ d0 ∧ r.dMin ≤ d1 ∧ r.lMax ≥ l0 ∧ r.lMin ≤ l1 then
        some ⟨max r.dMin d0, min r.dMax d1, max r.lMin l0, min r.lMax l1⟩
      else none) := by
  induction cams with
  | nil => rfl
  | cons c cams ih =>
    rw [validCams, List.filter_cons, List.filterMap_cons]
    by_cases hc : c.dMax ≥ d0 ∧ c.dMin ≤ d1 ∧ c.lMax ≥ l0 ∧ c.lMin ≤ l1
    · rw [if_pos (by simpa [camOverlaps] using hc), if_pos hc, List.map_cons]
      rw [validCams] at ih
      rw [ih]
      congr 1
      simp [clipCam, max_comm, min_comm]
    · rw [if_neg (by simpa [camOverlaps] using hc), if_neg hc]
      rw [validCams] at ih
      rw [ih]

theorem canCoverAll_congr_vc (d0 d1 l0 l1 : ℚ) (cams1 cams2 : List Cam)
    (h1 : cams1 ≠ []) (h2 : cams2 ≠ [])
    (hv : validCams d0 d1 l0 l1 cams1 = validCams d0 d1 l0 l1 cams2) :
    canCoverAll d0 d1 l0 l1 cams1 = canCoverAll d0 d1 l0 l1 cams2 := by
  have h1' : ¬ cams1.length = 0 := by simpa [List.length_eq_zero] using h1
  have h2' : ¬ cams2.length = 0 := by simpa [List.length_eq_zero] using h2
  unfold canCoverAll
  by_cases hd : d0 = d1 ∧ l0 = l1
  · rw [if_pos hd, if_pos hd]
  · rw [if_neg hd, if_neg hd, if_neg h1', if_neg h2', hv]

theorem validCams_drop (d0 d1 l0 l1 : ℚ) (c : Cam) (pre post : List Cam)
    (hc : camOverlaps d0 d1 l0 l1 c = false) :
    validCams d0 d1 l0 l1 (pre ++ c :: post) = validCams d0 d1 l0 l1 (pre ++ post) := by
  unfold validCams
  rw [List.filter_append, List.filter_cons, hc, List.filter_append]
  simp

theorem canCoverAll_drop (d0 d1 l0 l1 : ℚ) (c : Cam) (pre post : List Cam)
    (hc : camOverlaps d0 d1 l0 l1 c = false) :
    canCoverAll d0 d1 l0 l1 (pre ++ c :: post) = canCoverAll d0 d1 l0 l1 (pre ++ post) := by
  have hv := validCams_drop d0 d1 l0 l1 c pre post hc
  by_cases hnil : pre ++ post = []
  · by_cases hd : d0 = d1 ∧ l0 = l1
    · obtain ⟨rfl, rfl⟩ := hd
      rw [canCoverAll_deg, canCoverAll_deg]
    · have hvnil : validCams d0 d1 l0 l1 (pre ++ c :: post) = [] := by
        rw [hv, hnil]; rfl
      rw [canCoverAll_vcnil d0 d1 l0 l1 _ hd hvnil, hnil]
      unfold canCoverAll
      rw [if_neg hd]
      simp
  · exact canCoverAll_congr_vc d0 d1 l0 l1 _ _ (by simp) hnil hv

/-- C7: the filter-and-clip step keeps a rectangle iff it satisfies the overlap
test, replaces every kept rectangle by its clamp to the target
(`dMin' = max(dMin, distanceMin)` etc.), and a dropped rectangle never
influences the result. -/
theorem coverage_filter_clip (d0 d1 l0 l1 : ℚ) (cams : List Cam) (c : Cam)
    (pre post : List Cam) :
    (validCams d0 d1 l0 l1 cams = cams.filterMap (fun r : Cam =>
      if r.dMax ≥ d0 ∧ r.dMin ≤ d1 ∧ r.lMax ≥ l0 ∧ r.lMin ≤ l1 then
        some ⟨max r.dMin d0, min r.dMax d1, max r.lMin l0, min r.lMax l1⟩
      else none)) ∧
    (camOverlaps d0 d1 l0 l1 c = false →
      canCoverAll d0 d1 l0 l1 (pre ++ c :: post) = canCoverAll d0 d1 l0 l1 (pre ++ post)) :=
  ⟨validCams_filterMap d0 d1 l0 l1 cams,
    fun hc => canCoverAll_drop d0 d1 l0 l1 c pre post hc⟩

/-- Witness for C7: concrete filter-and-clip computation, and dropping the
non-overlapping rectangle `⟨20, 30, 0, 1⟩` leaves the result unchanged. -/
theorem coverage_filter_clip_witness :
    (validCams 0 10 0 10 [⟨-1, 5, 2, 12⟩, ⟨20, 30, 0, 1⟩] =
      [⟨-1, 5, 2, 12⟩, ⟨20, 30, 0, 1⟩].filterMap (fun r : Cam =>
        if r.dMax ≥ (0:ℚ) ∧ r.dMin ≤ 10 ∧ r.lMax ≥ 0 ∧ r.lMin ≤ 10 then
          some ⟨max r.dMin 0, min r.dMax 10, max r.lMin 0, min r.lMax 10⟩
        else none)) ∧
    camOverlaps 0 10 0 10 ⟨20, 30, 0, 1⟩ = false ∧
    canCoverAll 0 10 0 10 ([⟨0, 10, 0, 10⟩] ++ ⟨20, 30, 0, 1⟩ :: [⟨3, 4, 5, 6⟩]) =
      canCoverAll 0 10 0 10 ([⟨0, 10, 0, 10⟩] ++ [⟨3, 4, 5, 6⟩]) :=
  ⟨(coverage_filter_clip 0 10 0 10 [⟨-1, 5, 2, 12⟩, ⟨20, 30, 0, 1⟩] ⟨20, 30, 0, 1⟩ [] []).1,
    by decide,
    (coverage_filter_clip 0 10 0 10 [] ⟨20, 30, 0, 1⟩ [⟨0, 10, 0, 10⟩] [⟨3, 4, 5, 6⟩]).2
      (by decide)⟩

/-- C2 amended: `coverage_check` performs no validation and raises no error: an
invalid rectangle that passes the overlap test is silently clipped into the
working set (and can change the result, see the counterexample), and one that
fails the test is silently dropped. -/
theorem coverage_check_no_validation (d0 d1 l0 l1 : ℚ) (c : Cam) (cams : List Cam)
    (hc : camOverlaps d0 d1 l0 l1 c = true) :
    clipCam d0 d1 l0 l1 c ∈ validCams d0 d1 l0 l1 (c :: cams) := by
  unfold validCams
  rw [List.filter_cons, hc]
  simp

/-- Witness for the amended C2: the invalid rectangle `⟨6, 4, 0, 10⟩` passes the
overlap test against the target `[0,10] × [0,10]` and its clip enters the
working set. -/
theorem coverage_check_no_validation_witness :
    camOverlaps 0 10 0 10 ⟨6, 4, 0, 10⟩ = true ∧
    clipCam 0 10 0 10 ⟨6, 4, 0, 10⟩ ∈ validCams 0 10 0 10 [⟨6, 4, 0, 10⟩] :=
  ⟨by decide, coverage_check_no_validation 0 10 0 10 ⟨6, 4, 0, 10⟩ [] (by decide)⟩

/-! ### Heap indexing: ancestors in the implicit binary tree -/

def heapAnc (i j : Nat) : Prop := ∃ k, j / 2 ^ k = i

theorem heapAnc_refl (i : Nat) : heapAnc i i := ⟨0, by simp⟩

theorem heapAnc_of_left {i j : Nat} (h : heapAnc (2 * i) j) : heapAnc i j := by
  obtain ⟨k, hk⟩ := h
  exact ⟨k + 1, by rw [pow_succ, ← Nat.div_div_eq_div_mul, hk]; omega⟩

theorem heapAnc_of_right {i j : Nat} (h : heapAnc (2 * i + 1) j) : heapAnc i j := by
  obtain ⟨k, hk⟩ := h
  exact ⟨k + 1, by rw [pow_succ, ← Nat.div_div_eq_div_mul, hk]; omega⟩

theorem heapAnc_le {i j : Nat} (h : heapAnc i j) : i ≤ j := by
  obtain ⟨k, hk⟩ := h
  exact hk ▸ Nat.div_le_self j (2 ^ k)

theorem heapAnc_trans {i j k : Nat} (h1 : heapAnc i j) (h2 : heapAnc j k) : heapAnc i k := by
  obtain ⟨a, ha⟩ := h1
  obtain ⟨b, hb⟩ := h2
  exact ⟨b + a, by rw [pow_add, ← Nat.div_div_eq_div_mul, hb, ha]⟩

theorem heapAnc_sibling {i j : Nat} (hi : 1 ≤ i)
    (hl : heapAnc (2 * i) j) (hr : heapAnc (2 * i + 1) j) : False := by
  obtain ⟨a, ha⟩ := hl
  obtain ⟨b, hb⟩ := hr
  rcases Nat.lt_trichotomy a b with hab | hab | hab
  · have hsplit : j / 2 ^ b = (j / 2 ^ a) / 2 ^ (b - a) := by
      rw [Nat.div_div_eq_div_mul, ← pow_add]
      congr 2
      omega
    have h2 : 2 ≤ 2 ^ (b - a) := by
      calc 2 = 2 ^ 1 := by norm_num
      _ ≤ 2 ^ (b - a) := Nat.pow_le_pow_right (by norm_num) (by omega)
    have hle : (2 * i) / 2 ^ (b - a) ≤ (2 * i) / 2 := Nat.div_le_div_left h2 (by norm_num)
    rw [hsplit, ha] at hb
    omega
  · rw [hab] at ha
    omega
  · have hsplit : j / 2 ^ a = (j / 2 ^ b) / 2 ^ (a - b) := by
      rw [Nat.div_div_eq_div_mul, ← pow_add]
      congr 2
      omega
    have h2 : 2 ≤ 2 ^ (a - b) := by
      calc 2 = 2 ^ 1 := by norm_num
      _ ≤ 2 ^ (a - b) := Nat.pow_le_pow_right (by norm_num) (by omega)
    have hle : (2 * i + 1) / 2 ^ (a - b) ≤ (2 * i + 1) / 2 := Nat.div_le_div_left h2 (by norm_num)
    rw [hsplit, hb] at ha
    omega

theorem not_heapAnc_left_self {i : Nat} (hi : 1 ≤ i) : ¬ heapAnc (2 * i) i :=
  fun h => by have := heapAnc_le h; omega

theorem not_heapAnc_right_self {i : Nat} (hi : 1 ≤ i) : ¬ heapAnc (2 * i + 1) i :=
  fun h => by have := heapAnc_le h; omega

theorem not_heapAnc_left_of (hi : 1 ≤ i) {j : Nat} (h : heapAnc (2 * i + 1) j) :
    ¬ heapAnc (2 * i) j :=
  fun h2 => heapAnc_sibling hi h2 h

/-! ### Equation lemmas for `updateRange` -/

theorem updateRange_no (coords : List ℚ) (fuel : Nat) (cover : Nat → Int) (clen : Nat → ℚ)
    (idx : Nat) (left right ql qr delta : Int) (h : ql > right ∨ qr < left) :
    updateRange coords (fuel + 1) cover clen idx left right ql qr delta = (cover, clen) := by
  rw [updateRange, if_pos h]

theorem updateRange_full (coords : List ℚ) (fuel : Nat) (cover : Nat → Int) (clen : Nat → ℚ)
    (idx : Nat) (left right ql qr delta : Int) (hno : ¬(ql > right ∨ qr < left))
    (hfull : ql ≤ left ∧ right ≤ qr) :
    updateRange coords (fuel + 1) cover clen idx left right ql qr delta =
      (Function.update cover idx (cover idx + delta),
        recomputeLen coords (Function.update cover idx (cover idx + delta)) clen
          idx left right) := by
  rw [updateRange, if_neg hno, if_pos hfull]

theorem updateRange_split (coords : List ℚ) (fuel : Nat) (cover : Nat → Int) (clen : Nat → ℚ)
    (idx : Nat) (left right ql qr delta : Int) (hno : ¬(ql > right ∨ qr < left))
    (hnf : ¬(ql ≤ left ∧ right ≤ qr)) :
    updateRange coords (fuel + 1) cover clen idx left right ql qr delta =
      ((updateRange coords fuel
          (updateRange coords fuel cover clen (2 * idx) left ((left + right) / 2) ql qr delta).1
          (updateRange coords fuel cover clen (2 * idx) left ((left + right) / 2) ql qr delta).2
          (2 * idx + 1) ((left + right) / 2 + 1) right ql qr delta).1,
        recomputeLen coords
          (updateRange coords fuel
            (updateRange coords fuel cover clen (2 * idx) left ((left + right) / 2) ql qr delta).1
            (updateRange coords fuel cover clen (2 * idx) left ((left + right) / 2) ql qr delta).2
            (2 * idx + 1) ((left + right) / 2 + 1) right ql qr delta).1
          (updateRange coords fuel
            (updateRange coords fuel cover clen (2 * idx) left ((left + right) / 2) ql qr delta).1
            (updateRange coords fuel cover clen (2 * idx) left ((left + right) / 2) ql qr delta).2
            (2 * idx + 1) ((left + right) / 2 + 1) right ql qr delta).2
          idx left right) := by
  rw [updateRange, if_neg hno, if_neg hnf]

/-- A node with nonempty overlap that is not fully contained has a nontrivial
span, so the split in `_updateRange` is always on a span of at least two. -/
theorem split_lt {left right ql qr : Int} (hno : ¬(ql > right ∨ qr < left))
    (hnf : ¬(ql ≤ left ∧ right ≤ qr)) : left < right := by
  rcases not_or.1 hno with ⟨h1, h2⟩
  rcases not_and_or.1 hnf with h | h <;> omega

/-- `_updateRange` touches only entries in the subtree of the node it is called
on: outside, both maps are unchanged. -/
theorem updateRange_outside (coords : List ℚ) (fuel : Nat) (cover : Nat → Int)
    (clen : Nat → ℚ) (idx : Nat) (left right ql qr delta : Int) (j : Nat)
    (hj : ¬ heapAnc idx j) :
    (updateRange coords fuel cover clen idx left right ql qr delta).1 j = cover j ∧
    (updateRange coords fuel cover clen idx left right ql qr delta).2 j = clen j := by
  induction fuel generalizing cover clen idx left right with
  | zero => exact ⟨rfl, rfl⟩
  | succ fuel ih =>
    have hji : j ≠ idx := fun h => hj (h ▸ heapAnc_refl idx)
    by_cases hno : ql > right ∨ qr < left
    · rw [updateRange_no coords fuel cover clen idx left right ql qr delta hno]
      exact ⟨rfl, rfl⟩
    · by_cases hfull : ql ≤ left ∧ right ≤ qr
      · rw [updateRange_full coords fuel cover clen idx left right ql qr delta hno hfull]
        exact ⟨Function.update_noteq hji _ _, Function.update_noteq hji _ _⟩
      · rw [updateRange_split coords fuel cover clen idx left right ql qr delta hno hfull]
        have hjl : ¬ heapAnc (2 * idx) j := fun h => hj (heapAnc_of_left h)
        have hjr : ¬ heapAnc (2 * idx + 1) j := fun h => hj (heapAnc_of_right h)
        obtain ⟨e1, e2⟩ := ih cover clen (2 * idx) left ((left + right) / 2) hjl
        obtain ⟨e3, e4⟩ := ih _ _ (2 * idx + 1) ((left + right) / 2 + 1) right hjr
        refine ⟨by rw [e3, e1], ?_⟩
        simp only [recomputeLen]
        rw [Function.update_noteq hji, e4, e2]

/-! ### The canonical range decomposition and its indicator -/

/-- Indicator of the canonical decomposition: `decompInd fuel idx left right ql
qr j` is `1` exactly when node `j` (in heap numbering, with the node `idx`
spanning elementary indices `[left, right]`) receives the `coverCount` delta of
an update over `[ql, qr]`. -/
def decompInd : Nat → Nat → Int → Int → Int → Int → Nat → Int
  | 0, _, _, _, _, _, _ => 0
  | fuel + 1, idx, left, right, ql, qr, j =>
    if ql > right ∨ qr < left then 0
    else if ql ≤ left ∧ right ≤ qr then (if j = idx then 1 else 0)
    else
      decompInd fuel (2 * idx) left ((left + right) / 2) ql qr j +
      decompInd fuel (2 * idx + 1) ((left + right) / 2 + 1) right ql qr j

theorem decompInd_nonneg (fuel : Nat) (idx : Nat) (left right ql qr : Int) (j : Nat) :
    0 ≤ decompInd fuel idx left right ql qr j := by
  induction fuel generalizing idx left right with
  | zero => exact le_refl 0
  | succ fuel ih =>
    rw [decompInd]
    split
    · exact le_refl 0
    · split
      · split <;> omega
      · exact add_nonneg (ih _ _ _) (ih _ _ _)

theorem decompInd_support {fuel : Nat} {idx : Nat} {left right ql qr : Int} {j : Nat}
    (h : decompInd fuel idx left right ql qr j ≠ 0) : heapAnc idx j := by
  induction fuel generalizing idx left right with
  | zero => exact absurd rfl h
  | succ fuel ih =>
    rw [decompInd] at h
    split at h
    · exact absurd rfl h
    · split at h
      · split at h
        · exact (by omega : j = idx) ▸ heapAnc_refl idx
        · exact absurd rfl h
      · rcases (by by_contra hc; push_neg at hc; omega :
          decompInd fuel (2 * idx) left ((left + right) / 2) ql qr j ≠ 0 ∨
          decompInd fuel (2 * idx + 1) ((left + right) / 2 + 1) right ql qr j ≠ 0) with hl | hr
        · exact heapAnc_of_left (ih hl)
        · exact heapAnc_of_right (ih hr)

theorem decompInd_empty (fuel : Nat) (idx : Nat) (left right ql qr : Int) (j : Nat)
    (h : ql > qr) : decompInd fuel idx left right ql qr j = 0 := by
  induction fuel generalizing idx left right with
  | zero => rfl
  | succ fuel ih =>
    rw [decompInd]
    split
    · rfl
    · split
      · omega
      · rw [ih, ih]
        rfl

/-- Effect of `_updateRange` on `coverCount`: each entry gains `delta` times the
decomposition indicator. -/
theorem updateRange_cover (coords : List ℚ) (fuel : Nat) (cover : Nat → Int)
    (clen : Nat → ℚ) (idx : Nat) (left right ql qr delta : Int) (j : Nat) :
    (updateRange coords fuel cover clen idx left right ql qr delta).1 j =
      cover j + delta * decompInd fuel idx left right ql qr j := by
  induction fuel generalizing cover clen idx left right with
  | zero => simp [updateRange, decompInd]
  | succ fuel ih =>
    by_cases hno : ql > right ∨ qr < left
    · rw [updateRange_no coords fuel cover clen idx left right ql qr delta hno, decompInd,
        if_pos hno]
      simp
    · by_cases hfull : ql ≤ left ∧ right ≤ qr
      · rw [updateRange_full coords fuel cover clen idx left right ql qr delta hno hfull,
          decompInd, if_neg hno, if_pos hfull]
        by_cases hji : j = idx
        · subst hji
          dsimp only
          rw [Function.update_same, if_pos rfl]
          ring
        · dsimp only
          rw [Function.update_noteq hji, if_neg hji]
          ring
      · rw [updateRange_split coords fuel cover clen idx left right ql qr delta hno hfull,
          decompInd, if_neg hno, if_neg hfull]
        dsimp only
        rw [ih, ih]
        ring

/-! ### Specification of the cached covered lengths -/

/-- The value the recompute rule determines for every node from the current
`coverCount` map alone: full span width when the count is positive, `0` at an
uncovered leaf, the children's sum at an internal node. -/
def specLen (coords : List ℚ) (cover : Nat → Int) : Nat → Nat → Int → Int → ℚ
  | 0, _, _, _ => 0
  | fuel + 1, idx, left, right =>
    if cover idx > 0 then coordAt coords (right + 1) - coordAt coords left
    else if left ≥ right then 0
    else
      specLen coords cover fuel (2 * idx) left ((left + right) / 2) +
      specLen coords cover fuel (2 * idx + 1) ((left + right) / 2 + 1) right

theorem specLen_fuel (coords : List ℚ) (cover : Nat → Int) (fuel fuel' : Nat)
    (idx : Nat) (left right : Int)
    (h : (right - left).toNat < fuel) (h' : (right - left).toNat < fuel') :
    specLen coords cover fuel idx left right = specLen coords cover fuel' idx left right := by
  induction fuel generalizing fuel' idx left right with
  | zero => omega
  | succ fuel ih =>
    obtain ⟨f2, rfl⟩ : ∃ f2, fuel' = f2 + 1 := ⟨fuel' - 1, by omega⟩
    rw [specLen, specLen]
    split
    · rfl
    · split
      · rfl
      · have hlr : left < right := by omega
        rw [ih fuel (2 * idx) left ((left + right) / 2) (by omega) (by omega),
          ih f2 (2 * idx) left ((left + right) / 2) (by omega) (by omega)]
        rw [ih fuel (2 * idx + 1) ((left + right) / 2 + 1) right (by omega) (by omega),
          ih f2 (2 * idx + 1) ((left + right) / 2 + 1) right (by omega) (by omega)]

theorem specLen_congr (coords : List ℚ) {cover cover' : Nat → Int} (fuel : Nat)
    (idx : Nat) (left right : Int)
    (h : ∀ j, heapAnc idx j → cover j = cover' j) :
    specLen coords cover fuel idx left right = specLen coords cover' fuel idx left right := by
  induction fuel generalizing idx left right with
  | zero => rfl
  | succ fuel ih =>
    rw [specLen, specLen, h idx (heapAnc_refl idx)]
    split
    · rfl
    · split
      · rfl
      · rw [ih (2 * idx) left ((left + right) / 2) (fun j hj => h j (heapAnc_of_left hj)),
          ih (2 * idx + 1) ((left + right) / 2 + 1) right (fun j hj => h j (heapAnc_of_right hj))]

/-! ### The nodes of the implicit tree below a given node -/

/-- `TNode idx L R i l r` says that node `i` with span `[l, r]` occurs in the
subtree rooted at node `idx` with span `[L, R]` (following the `(left+right)/2`
split of `_updateRange`). -/
inductive TNode : Nat → Int → Int → Nat → Int → Int → Prop
  | refl (idx : Nat) (left right : Int) : TNode idx left right idx left right
  | goLeft {idx : Nat} {left right : Int} {i : Nat} {l r : Int} :
      left < right → TNode (2 * idx) left ((left + right) / 2) i l r →
      TNode idx left right i l r
  | goRight {idx : Nat} {left right : Int} {i : Nat} {l r : Int} :
      left < right → TNode (2 * idx + 1) ((left + right) / 2 + 1) right i l r →
      TNode idx left right i l r

theorem TNode.anc {idx : Nat} {L R : Int} {i : Nat} {l r : Int}
    (t : TNode idx L R i l r) : heapAnc idx i := by
  induction t with
  | refl => exact heapAnc_refl _
  | goLeft hlt _ ih => exact heapAnc_of_left ih
  | goRight hlt _ ih => exact heapAnc_of_right ih

theorem TNode.one_le {idx : Nat} {L R : Int} {i : Nat} {l r : Int}
    (hidx : 1 ≤ idx) (t : TNode idx L R i l r) : 1 ≤ i :=
  le_trans hidx (heapAnc_le t.anc)

theorem TNode.bounds {idx : Nat} {L R : Int} {i : Nat} {l r : Int}
    (t : TNode idx L R i l r) : L ≤ l ∧ r ≤ R := by
  induction t with
  | refl => exact ⟨le_refl _, le_refl _⟩
  | goLeft hlt _ ih => exact ⟨ih.1, by omega⟩
  | goRight hlt _ ih => exact ⟨by omega, ih.2⟩

/-! ### The cached-length invariant -/

/-- Every node of the tree below `(idx, left, right)` caches exactly the length
that the recompute rule determines from the current counts. -/
def GoodLen (coords : List ℚ) (cover : Nat → Int) (clen : Nat → ℚ) (F : Nat)
    (idx : Nat) (left right : Int) : Prop :=
  ∀ i l r, TNode idx left right i l r → clen i = specLen coords cover F i l r

theorem GoodLen.left {coords cover clen F idx left right} (hlt : left < right)
    (hg : GoodLen coords cover clen F idx left right) :
    GoodLen coords cover clen F (2 * idx) left ((left + right) / 2) :=
  fun i l r t => hg i l r (TNode.goLeft hlt t)

theorem GoodLen.right {coords cover clen F idx left right} (hlt : left < right)
    (hg : GoodLen coords cover clen F idx left right) :
    GoodLen coords cover clen F (2 * idx + 1) ((left + right) / 2 + 1) right :=
  fun i l r t => hg i l r (TNode.goRight hlt t)

theorem GoodLen.congr {coords} {cover cover' : Nat → Int} {clen clen' : Nat → ℚ}
    {F : Nat} {idx : Nat} {left right : Int}
    (h : ∀ j, heapAnc idx j → cover j = cover' j ∧ clen j = clen' j)
    (hg : GoodLen coords cover clen F idx left right) :
    GoodLen coords cover' clen' F idx left right := by
  intro i l r t
  have hanc : heapAnc idx i := t.anc
  rw [← (h i hanc).2, hg i l r t]
  exact specLen_congr coords F i l r (fun j hj => (h j (heapAnc_trans hanc hj)).1)

/-- Main invariant maintenance: `_updateRange`, called on a node whose cached
lengths satisfy the recompute rule, leaves every cached length in that subtree
equal to the rule's value for the updated counts. -/
theorem updateRange_GoodLen (coords : List ℚ) (fuel : Nat) (cover : Nat → Int)
    (clen : Nat → ℚ) (idx : Nat) (left right : Int) (F : Nat) (ql qr delta : Int)
    (hfuel : (right - left).toNat < fuel) (hF : (right - left).toNat < F)
    (hidx : 1 ≤ idx) (hlr : left ≤ right)
    (hg : GoodLen coords cover clen F idx left right) :
    GoodLen coords (updateRange coords fuel cover clen idx left right ql qr delta).1
      (updateRange coords fuel cover clen idx left right ql qr delta).2 F idx left right := by
  induction fuel generalizing cover clen idx left right F with
  | zero => omega
  | succ fuel ih =>
    by_cases hno : ql > right ∨ qr < left
    · rw [updateRange_no coords fuel cover clen idx left right ql qr delta hno]
      exact hg
    by_cases hfull : ql ≤ left ∧ right ≤ qr
    · rw [updateRange_full coords fuel cover clen idx left right ql qr delta hno hfull]
      dsimp only
      obtain ⟨F2, rfl⟩ : ∃ F2, F = F2 + 1 := ⟨F - 1, by omega⟩
      intro i l r t
      cases t with
      | refl =>
        simp only [recomputeLen, Function.update_same]
        rw [specLen, Function.update_same]
        by_cases hpos : cover idx + delta > 0
        · rw [if_pos hpos, if_pos hpos]
        · rw [if_neg hpos, if_neg hpos]
          by_cases hleaf : left = right
          · rw [if_pos hleaf, if_pos (by omega : left ≥ right)]
          · rw [if_neg hleaf, if_neg (by omega : ¬ left ≥ right)]
            have hlt : left < right := by omega
            have hc : ∀ j, heapAnc (2 * idx) j →
                cover j = Function.update cover idx (cover idx + delta) j := by
              intro j hj
              have h1 := heapAnc_le hj
              exact (Function.update_noteq (by omega) _ _).symm
            have hc2 : ∀ j, heapAnc (2 * idx + 1) j →
                cover j = Function.update cover idx (cover idx + delta) j := by
              intro j hj
              have h1 := heapAnc_le hj
              exact (Function.update_noteq (by omega) _ _).symm
            rw [hg _ _ _ (TNode.goLeft hlt (TNode.refl _ _ _)),
              hg _ _ _ (TNode.goRight hlt (TNode.refl _ _ _)),
              specLen_fuel coords cover (F2 + 1) F2 (2 * idx) left ((left + right) / 2)
                (by omega) (by omega),
              specLen_fuel coords cover (F2 + 1) F2 (2 * idx + 1) ((left + right) / 2 + 1)
                right (by omega) (by omega),
              specLen_congr coords F2 (2 * idx) left ((left + right) / 2) hc,
              specLen_congr coords F2 (2 * idx + 1) ((left + right) / 2 + 1) right hc2]
      | goLeft hlt t =>
        have hanc := heapAnc_le t.anc
        have hne : i ≠ idx := by omega
        simp only [recomputeLen]
        rw [Function.update_noteq hne, hg i l r (TNode.goLeft hlt t)]
        exact specLen_congr coords (F2 + 1) i l r (fun j hj => by
          have h2 := heapAnc_le hj
          exact (Function.update_noteq (by omega) _ _).symm)
      | goRight hlt t =>
        have hanc := heapAnc_le t.anc
        have hne : i ≠ idx := by omega
        simp only [recomputeLen]
        rw [Function.update_noteq hne, hg i l r (TNode.goRight hlt t)]
        exact specLen_congr coords (F2 + 1) i l r (fun j hj => by
          have h2 := heapAnc_le hj
          exact (Function.update_noteq (by omega) _ _).symm)
    · have hlt : left < right := split_lt hno hfull
      rw [updateRange_split coords fuel cover clen idx left right ql qr delta hno hfull]
      dsimp only
      set mid := (left + right) / 2 with hmid
      set p1 := updateRange coords fuel cover clen (2 * idx) left mid ql qr delta with hp1
      set p2 := updateRange coords fuel p1.1 p1.2 (2 * idx + 1) (mid + 1) right ql qr delta
        with hp2
      have hG1 : GoodLen coords p1.1 p1.2 F (2 * idx) left mid := by
        rw [hp1]
        exact ih cover clen (2 * idx) left mid F (by omega) (by omega) (by omega) (by omega)
          (hg.left hlt)
      have hout1 : ∀ j, ¬ heapAnc (2 * idx) j → p1.1 j = cover j ∧ p1.2 j = clen j :=
        fun j hj => updateRange_outside coords fuel cover clen (2 * idx) left mid ql qr delta j hj
      have hG2pre : GoodLen coords p1.1 p1.2 F (2 * idx + 1) (mid + 1) right :=
        GoodLen.congr (fun j hj =>
          ⟨((hout1 j (fun hl => heapAnc_sibling hidx hl hj)).1).symm,
            ((hout1 j (fun hl => heapAnc_sibling hidx hl hj)).2).symm⟩) (hg.right hlt)
      have hG2 : GoodLen coords p2.1 p2.2 F (2 * idx + 1) (mid + 1) right := by
        rw [hp2]
        exact ih p1.1 p1.2 (2 * idx + 1) (mid + 1) right F (by omega) (by omega) (by omega)
          (by omega) hG2pre
      have hout2 : ∀ j, ¬ heapAnc (2 * idx + 1) j → p2.1 j = p1.1 j ∧ p2.2 j = p1.2 j :=
        fun j hj => updateRange_outside coords fuel p1.1 p1.2 (2 * idx + 1) (mid + 1) right
          ql qr delta j hj
      have hG1at2 : GoodLen coords p2.1 p2.2 F (2 * idx) left mid :=
        GoodLen.congr (fun j hj =>
          ⟨((hout2 j (fun hr => heapAnc_sibling hidx hj hr)).1).symm,
            ((hout2 j (fun hr => heapAnc_sibling hidx hj hr)).2).symm⟩) hG1
      obtain ⟨F2, rfl⟩ : ∃ F2, F = F2 + 1 := ⟨F - 1, by omega⟩
      intro i l r t
      cases t with
      | refl =>
        simp only [recomputeLen, Function.update_same]
        rw [specLen]
        by_cases hpos : p2.1 idx > 0
        · rw [if_pos hpos, if_pos hpos]
        · rw [if_neg hpos, if_neg hpos, if_neg (by omega : ¬ left = right),
            if_neg (by omega : ¬ left ≥ right)]
          rw [hG1at2 _ _ _ (TNode.refl _ _ _), hG2 _ _ _ (TNode.refl _ _ _),
            specLen_fuel coords p2.1 (F2 + 1) F2 (2 * idx) left mid (by omega) (by omega),
            specLen_fuel coords p2.1 (F2 + 1) F2 (2 * idx + 1) (mid + 1) right
              (by omega) (by omega)]
      | goLeft hlt2 t =>
        have hanc := heapAnc_le t.anc
        have hne : i ≠ idx := by omega
        simp only [recomputeLen]
        rw [Function.update_noteq hne]
        exact hG1at2 i l r t
      | goRight hlt2 t =>
        have hanc := heapAnc_le t.anc
        have hne : i ≠ idx := by omega
        simp only [recomputeLen]
        rw [Function.update_noteq hne]
        exact hG2 i l r t

/-! ### Path coverage: which elementary intervals a count map covers -/

/-- `pathCov cover fuel idx left right j` holds when some node on the path from
`(idx, left, right)` down to the leaf of elementary index `j` has a positive
count: exactly then elementary interval `j` contributes to the cached length. -/
def pathCov (cover : Nat → Int) : Nat → Nat → Int → Int → Int → Bool
  | 0, _, _, _, _ => false
  | fuel + 1, idx, left, right, j =>
    if cover idx > 0 then true
    else if left ≥ right then false
    else if j ≤ (left + right) / 2 then pathCov cover fuel (2 * idx) left ((left + right) / 2) j
    else pathCov cover fuel (2 * idx + 1) ((left + right) / 2 + 1) right j

theorem pathCov_congr {cover cover' : Nat → Int} (fuel : Nat) (idx : Nat) (left right j : Int)
    (h : ∀ ν, heapAnc idx ν → cover ν = cover' ν) :
    pathCov cover fuel idx left right j = pathCov cover' fuel idx left right j := by
  induction fuel generalizing idx left right with
  | zero => rfl
  | succ fuel ih =>
    rw [pathCov, pathCov, h idx (heapAnc_refl idx)]
    split
    · rfl
    · split
      · rfl
      · split
        · exact ih (2 * idx) left ((left + right) / 2)
            (fun ν hν => h ν (heapAnc_of_left hν))
        · exact ih (2 * idx + 1) ((left + right) / 2 + 1) right
            (fun ν hν => h ν (heapAnc_of_right hν))

/-! ### Sums over integer intervals -/

theorem sum_Icc_split (f : Int → ℚ) (l m r : Int) (h1 : l ≤ m + 1) (h2 : m ≤ r) :
    ∑ j in Finset.Icc l r, f j =
      (∑ j in Finset.Icc l m, f j) + ∑ j in Finset.Icc (m + 1) r, f j := by
  rw [← Finset.sum_union (by
    rw [Finset.disjoint_left]
    intro a ha hb
    rw [Finset.mem_Icc] at ha hb
    omega)]
  congr 1
  ext x
  simp only [Finset.mem_union, Finset.mem_Icc]
  omega

theorem sum_Icc_telescope_aux (f : Int → ℚ) (l : Int) :
    ∀ r : Int, l - 1 ≤ r → ∑ j in Finset.Icc l r, (f (j + 1) - f j) = f (r + 1) - f l := by
  refine Int.le_induction ?_ ?_
  · have he : Finset.Icc l (l - 1) = (∅ : Finset Int) := by
      ext x
      simp only [Finset.mem_Icc, Finset.not_mem_empty, iff_false]
      omega
    rw [he]
    simp
  · intro n hn ih
    have he : Finset.Icc (n + 1) (n + 1) = ({n + 1} : Finset Int) := by
      ext x
      simp only [Finset.mem_Icc, Finset.mem_singleton]
      omega
    rw [sum_Icc_split _ l n (n + 1) (by omega) (by omega), ih, he, Finset.sum_singleton]
    ring

theorem sum_Icc_telescope (f : Int → ℚ) (l r : Int) (h : l ≤ r + 1) :
    ∑ j in Finset.Icc l r, (f (j + 1) - f j) = f (r + 1) - f l :=
  sum_Icc_telescope_aux f l r (by omega)

/-- Klee decomposition at the level of one node: the recompute rule's value is
the total length of the elementary intervals covered along some path. -/
theorem specLen_eq_sum (coords : List ℚ) (cover : Nat → Int) (fuel : Nat) (idx : Nat)
    (left right : Int) (hfuel : (right - left).toNat < fuel) (hlr1 : left ≤ right + 1) :
    specLen coords cover fuel idx left right =
      ∑ j in Finset.Icc left right,
        (if pathCov cover fuel idx left right j then
          coordAt coords (j + 1) - coordAt coords j else 0) := by
  induction fuel generalizing idx left right with
  | zero => omega
  | succ fuel ih =>
    rw [specLen]
    by_cases hpos : cover idx > 0
    · rw [if_pos hpos]
      rw [Finset.sum_congr rfl (fun j _ => by
        rw [pathCov, if_pos hpos, if_pos rfl]),
        sum_Icc_telescope (fun i => coordAt coords i) left right hlr1]
    · rw [if_neg hpos]
      by_cases hge : left ≥ right
      · rw [if_pos hge]
        rcases lt_or_eq_of_le hge with hlt | heq
        · have he : Finset.Icc left right = (∅ : Finset Int) := by
            ext x
            simp only [Finset.mem_Icc, Finset.not_mem_empty, iff_false]
            omega
          rw [he]
          simp
        · have he : Finset.Icc left right = ({left} : Finset Int) := by
            ext x
            simp only [Finset.mem_Icc, Finset.mem_singleton]
            omega
          rw [he, Finset.sum_singleton, pathCov, if_neg hpos, if_pos hge]
          simp
      · rw [if_neg hge]
        have hlt : left < right := by omega
        have e1 : ∀ j ∈ Finset.Icc left ((left + right) / 2),
            (if pathCov cover (fuel + 1) idx left right j = true then
              coordAt coords (j + 1) - coordAt coords j else 0) =
            (if pathCov cover fuel (2 * idx) left ((left + right) / 2) j = true then
              coordAt coords (j + 1) - coordAt coords j else 0) := by
          intro j hj
          rw [Finset.mem_Icc] at hj
          rw [pathCov, if_neg hpos, if_neg (by omega : ¬ left ≥ right), if_pos hj.2]
        have e2 : ∀ j ∈ Finset.Icc ((left + right) / 2 + 1) right,
            (if pathCov cover (fuel + 1) idx left right j = true then
              coordAt coords (j + 1) - coordAt coords j else 0) =
            (if pathCov cover fuel (2 * idx + 1) ((left + right) / 2 + 1) right j = true then
              coordAt coords (j + 1) - coordAt coords j else 0) := by
          intro j hj
          rw [Finset.mem_Icc] at hj
          rw [pathCov, if_neg hpos, if_neg (by omega : ¬ left ≥ right),
            if_neg (by omega : ¬ j ≤ (left + right) / 2)]
        rw [sum_Icc_split _ left ((left + right) / 2) right (by omega) (by omega),
          Finset.sum_congr rfl e1, Finset.sum_congr rfl e2,
          ih (2 * idx) left ((left + right) / 2) (by omega) (by omega),
          ih (2 * idx + 1) ((left + right) / 2 + 1) right (by omega) (by omega)]

/-! ### Counts arising as sums of decomposition indicators -/

theorem decompInd_of_no {fuel : Nat} {idx : Nat} {left right ql qr : Int} (j : Nat)
    (h : ql > right ∨ qr < left) : decompInd fuel idx left right ql qr j = 0 := by
  cases fuel with
  | zero => rfl
  | succ fuel => rw [decompInd, if_pos h]

theorem decompInd_self (fuel : Nat) (idx : Nat) (left right ql qr : Int) (hidx : 1 ≤ idx) :
    decompInd (fuel + 1) idx left right ql qr idx =
      if ¬(ql > right ∨ qr < left) ∧ (ql ≤ left ∧ right ≤ qr) then 1 else 0 := by
  rw [decompInd]
  by_cases hno : ql > right ∨ qr < left
  · rw [if_pos hno, if_neg (by tauto)]
  · rw [if_neg hno]
    by_cases hfull : ql ≤ left ∧ right ≤ qr
    · rw [if_pos hfull, if_pos rfl, if_pos ⟨hno, hfull⟩]
    · rw [if_neg hfull, if_neg (by tauto)]
      have h1 : decompInd fuel (2 * idx) left ((left + right) / 2) ql qr idx = 0 := by
        by_contra hne
        have := heapAnc_le (decompInd_support hne)
        omega
      have h2 : decompInd fuel (2 * idx + 1) ((left + right) / 2 + 1) right ql qr idx = 0 := by
        by_contra hne
        have := heapAnc_le (decompInd_support hne)
        omega
      omega

theorem exists_pos_of_sum_pos {α : Type} (L : List α) (f : α → Int)
    (h : 0 < (L.map f).sum) : ∃ x ∈ L, 0 < f x := by
  induction L with
  | nil => simp at h
  | cons a L ih =>
    rw [List.map_cons, List.sum_cons] at h
    by_cases ha : 0 < f a
    · exact ⟨a, List.mem_cons_self a L, ha⟩
    · have hL : 0 < (L.map f).sum := by omega
      obtain ⟨x, hx, hfx⟩ := ih hL
      exact ⟨x, List.mem_cons_of_mem a hx, hfx⟩

/-- Count map of a list of index ranges: each entry is the number of ranges
whose canonical decomposition from the given node includes that entry. -/
def sumCover (QS : List (Int × Int)) (F : Nat) (idx : Nat) (l r : Int) : Nat → Int :=
  fun ν => (QS.map (fun q => decompInd F idx l r q.1 q.2 ν)).sum

/-- Core Klee equivalence: under counts that are a sum of decomposition
indicators, a path to elementary index `j` carries a positive count exactly when
some range of the list contains `j`. -/
theorem pathCov_sumCover (QS : List (Int × Int)) (F : Nat) (idx : Nat) (l r j : Int)
    (hidx : 1 ≤ idx) (hjl : l ≤ j) (hjr : j ≤ r) (hF : (r - l).toNat < F) :
    (pathCov (sumCover QS F idx l r) F idx l r j = true ↔ ∃ q ∈ QS, q.1 ≤ j ∧ j ≤ q.2) := by
  induction F generalizing idx l r with
  | zero => omega
  | succ F ih =>
    rw [pathCov]
    by_cases hpos : sumCover QS (F + 1) idx l r idx > 0
    · rw [if_pos hpos]
      unfold sumCover at hpos
      obtain ⟨q, hq, hfq⟩ := exists_pos_of_sum_pos QS _ hpos
      rw [decompInd_self F idx l r q.1 q.2 hidx] at hfq
      by_cases hc : ¬(q.1 > r ∨ q.2 < l) ∧ (q.1 ≤ l ∧ r ≤ q.2)
      · exact ⟨fun _ => ⟨q, hq, by omega, by omega⟩, fun _ => rfl⟩
      · rw [if_neg hc] at hfq
        omega
    · rw [if_neg hpos]
      have hzero : ∀ q ∈ QS, decompInd (F + 1) idx l r q.1 q.2 idx = 0 := by
        intro q hq
        have hnn : ∀ x ∈ QS.map (fun q => decompInd (F + 1) idx l r q.1 q.2 idx), 0 ≤ x := by
          intro x hx
          obtain ⟨q2, hq2, rfl⟩ := List.mem_map.1 hx
          exact decompInd_nonneg _ _ _ _ _ _ _
        have h1 := List.single_le_sum hnn _
          (List.mem_map_of_mem (fun q => decompInd (F + 1) idx l r q.1 q.2 idx) hq)
        have h3 := decompInd_nonneg (F + 1) idx l r q.1 q.2 idx
        unfold sumCover at hpos
        rw [not_lt] at hpos
        omega
      by_cases hge : l ≥ r
      · rw [if_pos hge]
        simp only [Bool.false_eq_true, false_iff, not_exists]
        rintro q ⟨hq, h1, h2⟩
        have hz := hzero q hq
        rw [decompInd_self F idx l r q.1 q.2 hidx,
          if_pos ⟨by omega, by omega, by omega⟩] at hz
        omega
      · rw [if_neg hge]
        have hlt : l < r := by omega
        have hcongL : ∀ ν, heapAnc (2 * idx) ν →
            sumCover QS (F + 1) idx l r ν = sumCover QS F (2 * idx) l ((l + r) / 2) ν := by
          intro ν hν
          unfold sumCover
          congr 1
          apply List.map_congr_left
          intro q hq
          by_cases hqno : q.1 > r ∨ q.2 < l
          · rw [decompInd_of_no ν hqno, decompInd_of_no ν (by omega)]
          · have hqnf : ¬(q.1 ≤ l ∧ r ≤ q.2) := by
              intro hfull
              have hz := hzero q hq
              rw [decompInd_self F idx l r q.1 q.2 hidx, if_pos ⟨hqno, hfull⟩] at hz
              omega
            rw [decompInd, if_neg hqno, if_neg hqnf]
            have h2 : decompInd F (2 * idx + 1) ((l + r) / 2 + 1) r q.1 q.2 ν = 0 := by
              by_contra hne
              exact heapAnc_sibling hidx hν (decompInd_support hne)
            omega
        have hcongR : ∀ ν, heapAnc (2 * idx + 1) ν →
            sumCover QS (F + 1) idx l r ν =
              sumCover QS F (2 * idx + 1) ((l + r) / 2 + 1) r ν := by
          intro ν hν
          unfold sumCover
          congr 1
          apply List.map_congr_left
          intro q hq
          by_cases hqno : q.1 > r ∨ q.2 < l
          · rw [decompInd_of_no ν hqno, decompInd_of_no ν (by omega)]
          · have hqnf : ¬(q.1 ≤ l ∧ r ≤ q.2) := by
              intro hfull
              have hz := hzero q hq
              rw [decompInd_self F idx l r q.1 q.2 hidx, if_pos ⟨hqno, hfull⟩] at hz
              omega
            rw [decompInd, if_neg hqno, if_neg hqnf]
            have h1 : decompInd F (2 * idx) l ((l + r) / 2) q.1 q.2 ν = 0 := by
              by_contra hne
              exact heapAnc_sibling hidx (decompInd_support hne) hν
            omega
        by_cases hj : j ≤ (l + r) / 2
        · rw [if_pos hj, pathCov_congr F (2 * idx) l ((l + r) / 2) j hcongL]
          exact ih (2 * idx) l ((l + r) / 2) (by omega) hjl hj (by omega)
        · rw [if_neg hj, pathCov_congr F (2 * idx + 1) ((l + r) / 2 + 1) r j hcongR]
          exact ih (2 * idx + 1) ((l + r) / 2 + 1) r (by omega) (by omega) hjr (by omega)

/-! ### The sweep: net counts of the processed events -/

def evDelta (e : Ev) : Int := if e.type > 0 then 1 else -1

/-- Contribution of one processed event to the `coverCount` map. -/
def evContrib (coords : List ℚ) (e : Ev) : Nat → Int := fun j =>
  if e.type = 0 then 0
  else evDelta e * decompInd (coords.length + 1) 1 0 ((coords.length : Int) - 2)
    (lightIdx coords e.lMin) (lightIdx coords e.lMax - 1) j

/-- The `coverCount` map determined by a list of processed events. -/
def netCover (coords : List ℚ) (es : List Ev) : Nat → Int := fun j =>
  (es.map (fun e => evContrib coords e j)).sum

theorem netCover_nil (coords : List ℚ) (j : Nat) : netCover coords [] j = 0 := rfl

theorem netCover_append (coords : List ℚ) (es1 es2 : List Ev) (j : Nat) :
    netCover coords (es1 ++ es2) j = netCover coords es1 j + netCover coords es2 j := by
  unfold netCover
  rw [List.map_append, List.sum_append]

theorem lightIdx_nonneg (coords : List ℚ) (v : ℚ) : 0 ≤ lightIdx coords v :=
  Int.natCast_nonneg _

/-- Effect of one sweep step on the counts. -/
theorem stepState_cover (coords : List ℚ) (st : (Nat → Int) × (Nat → ℚ)) (e : Ev) (j : Nat) :
    (stepState coords st e).1 j = st.1 j + evContrib coords e j := by
  unfold stepState evContrib
  by_cases ht : e.type ≠ 0
  · rw [if_pos ht, if_neg ht]
    unfold treeUpdate
    by_cases hor : lightIdx coords e.lMin > lightIdx coords e.lMax
    · rw [if_pos hor, decompInd_empty _ _ _ _ _ _ _ (by omega)]
      dsimp only
      ring
    · rw [if_neg hor,
        updateRange_cover coords (coords.length + 1) st.1 st.2 1 0 ((coords.length : Int) - 2)
          (lightIdx coords e.lMin) (lightIdx coords e.lMax - 1) (if e.type > 0 then 1 else -1) j]
      rfl
  · rw [if_neg ht, if_pos (by omega : e.type = 0)]
    omega

/-- One sweep step preserves the cached-length invariant. -/
theorem stepState_GoodLen (coords : List ℚ) (st : (Nat → Int) × (Nat → ℚ)) (e : Ev)
    (hg : GoodLen coords st.1 st.2 (coords.length + 1) 1 0 ((coords.length : Int) - 2)) :
    GoodLen coords (stepState coords st e).1 (stepState coords st e).2 (coords.length + 1)
      1 0 ((coords.length : Int) - 2) := by
  unfold stepState
  by_cases ht : e.type ≠ 0
  · rw [if_pos ht]
    unfold treeUpdate
    by_cases hor : lightIdx coords e.lMin > lightIdx coords e.lMax
    · rw [if_pos hor]
      exact hg
    · rw [if_neg hor]
      by_cases hn : (2 : Int) ≤ (coords.length : Int)
      · exact updateRange_GoodLen coords (coords.length + 1) st.1 st.2 1 0
          ((coords.length : Int) - 2) (coords.length + 1)
          (lightIdx coords e.lMin) (lightIdx coords e.lMax - 1) (if e.type > 0 then 1 else -1)
          (by omega) (by omega) le_rfl (by omega) hg
      · rw [updateRange_no coords coords.length st.1 st.2 1 0 ((coords.length : Int) - 2)
          (lightIdx coords e.lMin) (lightIdx coords e.lMax - 1) (if e.type > 0 then 1 else -1)
          (Or.inl (by have := lightIdx_nonneg coords e.lMin; omega))]
        exact hg
  · rw [if_neg ht]
    exact hg

/-! ### The sweep as a proposition -/

def sweepOKP (d0 d1 totalLen : ℚ) (coords : List ℚ) :
    ℚ → ((Nat → Int) × (Nat → ℚ)) → List Ev → Prop
  | _, _, [] => True
  | prev, st, e :: es =>
    (e.dist > prev ∧ min e.dist d1 > max prev d0 → st.2 1 ≥ totalLen) ∧
    sweepOKP d0 d1 totalLen coords e.dist (stepState coords st e) es

theorem sweep_eq_true_iff (d0 d1 totalLen : ℚ) (coords : List ℚ) :
    ∀ (es : List Ev) (prev : ℚ) (cover : Nat → Int) (clen : Nat → ℚ),
      (sweep d0 d1 totalLen coords prev cover clen es = true ↔
        sweepOKP d0 d1 totalLen coords prev (cover, clen) es) := by
  intro es
  induction es with
  | nil =>
    intro prev cover clen
    simp [sweep, sweepOKP]
  | cons e es ih =>
    intro prev cover clen
    rw [sweep, sweepOKP]
    by_cases hfire : e.dist > prev ∧ min e.dist d1 > max prev d0 ∧ clen 1 < totalLen
    · rw [if_pos hfire]
      simp only [Bool.false_eq_true, false_iff]
      rintro ⟨himp, -⟩
      have := himp ⟨hfire.1, hfire.2.1⟩
      linarith [hfire.2.2]
    · rw [if_neg hfire]
      dsimp only
      rw [ih e.dist (stepState coords (cover, clen) e).1 (stepState coords (cover, clen) e).2]
      constructor
      · intro h
        refine ⟨fun hc => ?_, h⟩
        by_contra hlt
        exact hfire ⟨hc.1, hc.2, by linarith⟩
      · exact fun h => h.2

/-! ### Adjacent pairs of the event distances -/

/-- `AdjPair D p d`: `p` and `d` are members of `D` with `p < d` and no member
of `D` strictly between them. -/
def AdjPair (D : List ℚ) (p d : ℚ) : Prop :=
  p ∈ D ∧ d ∈ D ∧ p < d ∧ ∀ m ∈ D, ¬(p < m ∧ m < d)

theorem AdjPair_congr {D D' : List ℚ} (h : ∀ m, m ∈ D ↔ m ∈ D') (p d : ℚ) :
    AdjPair D p d ↔ AdjPair D' p d := by
  unfold AdjPair
  constructor
  · rintro ⟨h1, h2, h3, h4⟩
    exact ⟨(h p).1 h1, (h d).1 h2, h3, fun m hm => h4 m ((h m).2 hm)⟩
  · rintro ⟨h1, h2, h3, h4⟩
    exact ⟨(h p).2 h1, (h d).2 h2, h3, fun m hm => h4 m ((h m).1 hm)⟩

theorem adjAll_singleton (Q : ℚ → Prop) (prev : ℚ) :
    (∀ p d, AdjPair [prev] p d → Q p) := by
  rintro p d ⟨hp, hd, hlt, -⟩
  rw [List.mem_singleton] at hp hd
  subst hp
  subst hd
  exact absurd hlt (lt_irrefl _)

theorem adjAll_step (Q : ℚ → Prop) (prev x : ℚ) (ds : List ℚ)
    (hlt : prev < x) (hge : ∀ m ∈ ds, x ≤ m) :
    ((∀ p d, AdjPair (prev :: x :: ds) p d → Q p) ↔
      (Q prev ∧ ∀ p d, AdjPair (x :: ds) p d → Q p)) := by
  constructor
  · intro h
    constructor
    · refine h prev x ⟨List.mem_cons_self _ _, List.mem_cons_of_mem _ (List.mem_cons_self _ _),
        hlt, ?_⟩
      intro m hm
      rcases List.mem_cons.1 hm with rfl | hm2
      · rintro ⟨hc, -⟩
        exact absurd hc (lt_irrefl _)
      rcases List.mem_cons.1 hm2 with rfl | hm3
      · rintro ⟨-, hc⟩
        exact absurd hc (lt_irrefl _)
      · have := hge m hm3
        rintro ⟨-, hc⟩
        linarith
    · rintro p d ⟨hp, hd, hlt', hblk⟩
      have hxp : x ≤ p := by
        rcases List.mem_cons.1 hp with rfl | hp2
        · exact le_refl p
        · exact hge p hp2
      refine h p d ⟨List.mem_cons_of_mem _ hp, List.mem_cons_of_mem _ hd, hlt', ?_⟩
      intro m hm
      rcases List.mem_cons.1 hm with rfl | hm2
      · rintro ⟨hc, -⟩
        linarith
      · exact hblk m hm2
  · rintro ⟨hQ, h⟩ p d ⟨hp, hd, hlt', hblk⟩
    rcases List.mem_cons.1 hp with rfl | hp2
    · exact hQ
    · have hxp : x ≤ p := by
        rcases List.mem_cons.1 hp2 with rfl | hp3
        · exact le_refl p
        · exact hge p hp3
      rcases List.mem_cons.1 hd with rfl | hd2
      · exact absurd hlt' (by intro hc; linarith)
      · exact h p d ⟨hp2, hd2, hlt', fun m hm => hblk m (List.mem_cons_of_mem _ hm)⟩

/-- Master sweep lemma: with the counts determined by the processed events and
the cached lengths satisfying the recompute rule, the remaining sweep succeeds
exactly when `Q` holds at the lower end of every adjacent pair of the remaining
distances. -/
theorem sweepOKP_iff_adj (d0 d1 totalLen : ℚ) (coords : List ℚ) (Q : ℚ → Prop) (S : List Ev)
    (hQ : ∀ (p : ℚ) (st : (Nat → Int) × (Nat → ℚ)), d0 ≤ p → p ≤ d1 →
      (∀ j, st.1 j = netCover coords (S.filter (fun e2 => e2.dist ≤ p)) j) →
      GoodLen coords st.1 st.2 (coords.length + 1) 1 0 ((coords.length : Int) - 2) →
      (st.2 1 ≥ totalLen ↔ Q p))
    (hsort : S.Pairwise (fun a b => a.dist ≤ b.dist))
    (hdS : ∀ e ∈ S, d0 ≤ e.dist ∧ e.dist ≤ d1) :
    ∀ (es P : List Ev) (prev : ℚ) (st : (Nat → Int) × (Nat → ℚ)),
      S = P ++ es →
      (∀ e ∈ P, e.dist ≤ prev) → (∀ e ∈ es, prev ≤ e.dist) →
      d0 ≤ prev → prev ≤ d1 →
      (∀ j, st.1 j = netCover coords P j) →
      GoodLen coords st.1 st.2 (coords.length + 1) 1 0 ((coords.length : Int) - 2) →
      (sweepOKP d0 d1 totalLen coords prev st es ↔
        ∀ p d, AdjPair (prev :: es.map Ev.dist) p d → Q p) := by
  intro es
  induction es with
  | nil =>
    intro P prev st hsplit hP hes hd0p hprevd1 hcov hg
    constructor
    · rintro - p d hpd
      rw [List.map_nil] at hpd
      exact adjAll_singleton Q prev p d hpd
    · rintro -
      rw [sweepOKP]
      trivial
  | cons e es ih =>
    intro P prev st hsplit hP hes hd0p hprevd1 hcov hg
    have hsuffix : (e :: es).Pairwise (fun a b : Ev => a.dist ≤ b.dist) :=
      (List.pairwise_append.1 (hsplit ▸ hsort)).2.1
    have hes2 : ∀ x ∈ es, e.dist ≤ x.dist := (List.pairwise_cons.1 hsuffix).1
    have hde : d0 ≤ e.dist ∧ e.dist ≤ d1 :=
      hdS e (by rw [hsplit]; exact List.mem_append_right P (List.mem_cons_self _ _))
    have hprevE : prev ≤ e.dist := hes e (List.mem_cons_self _ _)
    have hcov' : ∀ j, (stepState coords st e).1 j = netCover coords (P ++ [e]) j := by
      intro j
      rw [stepState_cover coords st e j, hcov j, netCover_append]
      simp [netCover]
    have hg' := stepState_GoodLen coords st e hg
    have hP' : ∀ x ∈ P ++ [e], x.dist ≤ e.dist := by
      intro x hx
      rcases List.mem_append.1 hx with hx1 | hx2
      · exact le_trans (hP x hx1) hprevE
      · rw [List.mem_singleton] at hx2
        subst hx2
        exact le_refl _
    have hsplit' : S = (P ++ [e]) ++ es := by rw [hsplit]; simp
    have key := ih (P ++ [e]) e.dist (stepState coords st e) hsplit' hP' hes2 hde.1 hde.2
      hcov' hg'
    rw [sweepOKP, key, List.map_cons]
    by_cases hgt : e.dist > prev
    · have hcond : min e.dist d1 > max prev d0 := by
        rw [min_eq_left hde.2, max_eq_left hd0p]
        exact hgt
      have hPfilter : S.filter (fun e2 => e2.dist ≤ prev) = P := by
        rw [hsplit, List.filter_append]
        have h1 : P.filter (fun e2 => decide (e2.dist ≤ prev)) = P :=
          List.filter_eq_self.2 (fun a ha => by simp [hP a ha])
        have h2 : (e :: es).filter (fun e2 => decide (e2.dist ≤ prev)) = [] := by
          rw [List.filter_eq_nil_iff]
          intro a ha
          rcases List.mem_cons.1 ha with rfl | ha2
          · simp only [decide_eq_true_eq]
            linarith
          · have := hes2 a ha2
            simp only [decide_eq_true_eq]
            linarith
        rw [h1, h2, List.append_nil]
      have hQp := hQ prev st hd0p hprevd1 (fun j => by rw [hcov j, hPfilter]) hg
      rw [adjAll_step Q prev e.dist (es.map Ev.dist) hgt (by
        intro m hm
        obtain ⟨x, hx, rfl⟩ := List.mem_map.1 hm
        exact hes2 x hx)]
      constructor
      · rintro ⟨himp, hrest⟩
        exact ⟨hQp.1 (himp ⟨hgt, hcond⟩), hrest⟩
      · rintro ⟨hQprev, hrest⟩
        exact ⟨fun _ => hQp.2 hQprev, hrest⟩
    · have heq : e.dist = prev := le_antisymm (not_lt.1 hgt) hprevE
      have hiff : ∀ p d, AdjPair (prev :: e.dist :: es.map Ev.dist) p d ↔
          AdjPair (e.dist :: es.map Ev.dist) p d := by
        intro p d
        refine AdjPair_congr (fun m => ?_) p d
        rw [heq]
        simp only [List.mem_cons]
        tauto
      constructor
      · rintro ⟨-, hrest⟩ p d hpd
        exact hrest p d ((hiff p d).1 hpd)
      · intro h
        exact ⟨fun hc => absurd hc.1 hgt, fun p d hpd => h p d ((hiff p d).2 hpd)⟩

/-! ### Facts about the compressed coordinate list -/

theorem uniqueSorted_sorted (vals : List ℚ) : (uniqueSorted vals).Sorted (· ≤ ·) :=
  List.sorted_insertionSort _ _

theorem uniqueSorted_nodup (vals : List ℚ) : (uniqueSorted vals).Nodup :=
  ((List.perm_insertionSort _ _).symm).nodup (List.nodup_dedup vals)

theorem mem_uniqueSorted (vals : List ℚ) (v : ℚ) : v ∈ uniqueSorted vals ↔ v ∈ vals := by
  unfold uniqueSorted
  rw [(List.perm_insertionSort _ _).mem_iff, List.mem_dedup]

theorem uniqueSorted_sortedLt (vals : List ℚ) : (uniqueSorted vals).Sorted (· < ·) :=
  List.Sorted.lt_of_le (uniqueSorted_sorted vals) (uniqueSorted_nodup vals)

theorem coordAt_eq_get (C : List ℚ) (i : Int) (h1 : 0 ≤ i) (h2 : i < (C.length : Int)) :
    coordAt C i = C.get ⟨i.toNat, by omega⟩ := by
  unfold coordAt
  rw [List.getD_eq_getElem?_getD, List.getElem?_eq_getElem (by omega : i.toNat < C.length)]
  rfl

theorem coordAt_lt_coordAt (C : List ℚ) (hs : C.Sorted (· < ·)) (i j : Int)
    (h1 : 0 ≤ i) (h2 : i < j) (h3 : j < (C.length : Int)) :
    coordAt C i < coordAt C j := by
  rw [coordAt_eq_get C i h1 (by omega), coordAt_eq_get C j (by omega) h3]
  exact hs.rel_get_of_lt (by simp [Fin.lt_def]; omega)

theorem coordAt_le_coordAt (C : List ℚ) (hs : C.Sorted (· < ·)) (i j : Int)
    (h1 : 0 ≤ i) (h2 : i ≤ j) (h3 : j < (C.length : Int)) :
    coordAt C i ≤ coordAt C j := by
  rcases lt_or_eq_of_le h2 with hlt | heq
  · exact le_of_lt (coordAt_lt_coordAt C hs i j h1 hlt h3)
  · rw [heq]

theorem coordAt_lt_iff (C : List ℚ) (hs : C.Sorted (· < ·)) (i j : Int)
    (h1 : 0 ≤ i) (h2 : i < (C.length : Int)) (h3 : 0 ≤ j) (h4 : j < (C.length : Int)) :
    coordAt C i < coordAt C j ↔ i < j := by
  constructor
  · intro h
    by_contra hc
    exact absurd (coordAt_le_coordAt C hs j i h3 (by omega) h2) (by linarith)
  · intro h
    exact coordAt_lt_coordAt C hs i j h1 h h4

theorem coordAt_le_iff (C : List ℚ) (hs : C.Sorted (· < ·)) (i j : Int)
    (h1 : 0 ≤ i) (h2 : i < (C.length : Int)) (h3 : 0 ≤ j) (h4 : j < (C.length : Int)) :
    coordAt C i ≤ coordAt C j ↔ i ≤ j := by
  constructor
  · intro h
    by_contra hc
    exact absurd (coordAt_lt_coordAt C hs j i h3 (by omega) h2) (by linarith)
  · intro h
    exact coordAt_le_coordAt C hs i j h1 h h4

theorem lightIdx_lt_length (C : List ℚ) (v : ℚ) (hv : v ∈ C) :
    lightIdx C v < (C.length : Int) := by
  unfold lightIdx
  exact_mod_cast List.indexOf_lt_length.2 hv

theorem coordAt_lightIdx (C : List ℚ) (v : ℚ) (hv : v ∈ C) :
    coordAt C (lightIdx C v) = v := by
  have hlt : C.indexOf v < C.length := List.indexOf_lt_length.2 hv
  rw [coordAt_eq_get C _ (lightIdx_nonneg C v) (lightIdx_lt_length C v hv)]
  have : (lightIdx C v).toNat = C.indexOf v := by
    unfold lightIdx
    omega
  simp only [this]
  exact List.indexOf_get hlt

/-! ### Net counts of the processed prefix as active-camera counts -/

/-- Index ranges of the cameras whose distance interval is active at sweep
position `p` (added at `dMin`, not yet removed at `dMax`). -/
def activeQ (coords : List ℚ) (vc : List Cam) (p : ℚ) : List (Int × Int) :=
  (vc.filter (fun c => c.dMin ≤ p ∧ p < c.dMax)).map
    (fun c => (lightIdx coords c.lMin, lightIdx coords c.lMax - 1))

theorem netCover_cons (coords : List ℚ) (e : Ev) (es : List Ev) (j : Nat) :
    netCover coords (e :: es) j = evContrib coords e j + netCover coords es j := by
  unfold netCover
  rw [List.map_cons, List.sum_cons]

theorem netCover_perm (coords : List ℚ) {es es' : List Ev} (h : es.Perm es') (j : Nat) :
    netCover coords es j = netCover coords es' j :=
  (h.map _).sum_eq

theorem evContrib_boundary (coords : List ℚ) (e : Ev) (he : e.type = 0) (j : Nat) :
    evContrib coords e j = 0 := by
  unfold evContrib
  rw [if_pos he]

theorem sumCover_cons (q : Int × Int) (QS : List (Int × Int)) (F : Nat) (idx : Nat)
    (l r : Int) (j : Nat) :
    sumCover (q :: QS) F idx l r j =
      decompInd F idx l r q.1 q.2 j + sumCover QS F idx l r j := by
  unfold sumCover
  rw [List.map_cons, List.sum_cons]

theorem netCover_filter_cons_boundary (coords : List ℚ) (q : Ev → Bool) (e : Ev)
    (he : e.type = 0) (es : List Ev) (j : Nat) :
    netCover coords ((e :: es).filter q) j = netCover coords (es.filter q) j := by
  rw [List.filter_cons]
  split
  · rw [netCover_cons, evContrib_boundary coords e he j]
    ring
  · rfl

theorem netCover_camlist (coords : List ℚ) (p : ℚ) :
    ∀ (vc : List Cam), (∀ c ∈ vc, c.dMin ≤ c.dMax) → ∀ j : Nat,
      netCover coords ((vc.flatMap camEvents).filter (fun e => e.dist ≤ p)) j =
        sumCover (activeQ coords vc p) (coords.length + 1) 1 0 ((coords.length : Int) - 2) j := by
  intro vc
  induction vc with
  | nil =>
    intro _ j
    rfl
  | cons c vc ih =>
    intro hwf j
    have hwfc := hwf c (List.mem_cons_self c vc)
    have ihj := ih (fun c2 hc2 => hwf c2 (List.mem_cons_of_mem c hc2)) j
    rw [List.flatMap_cons, List.filter_append, netCover_append, ihj]
    unfold activeQ
    rw [List.filter_cons]
    by_cases h1 : c.dMin ≤ p
    · by_cases h2 : c.dMax ≤ p
      · rw [if_neg (by
          simp only [decide_eq_true_eq, not_and, not_lt]
          exact fun _ => h2)]
        have hfl : (camEvents c).filter (fun e => e.dist ≤ p) = camEvents c := by
          rw [List.filter_eq_self]
          intro a ha
          unfold camEvents at ha
          rcases List.mem_cons.1 ha with rfl | ha2
          · simpa using h1
          · rw [List.mem_singleton] at ha2
            subst ha2
            simpa using h2
        rw [hfl]
        unfold camEvents
        rw [netCover_cons, netCover_cons, netCover_nil]
        unfold evContrib evDelta
        simp only [if_neg (by norm_num : ¬(1 : Int) = 0),
          if_neg (by norm_num : ¬(-1 : Int) = 0),
          if_pos (by norm_num : (1 : Int) > 0),
          if_neg (by norm_num : ¬(-1 : Int) > 0)]
        ring
      · rw [if_pos (by
          simp only [decide_eq_true_eq]
          exact ⟨h1, by linarith⟩)]
        have hfl : (camEvents c).filter (fun e => e.dist ≤ p) = [⟨c.dMin, 1, c.lMin, c.lMax⟩] := by
          unfold camEvents
          simp [List.filter_cons, h1, h2]
        rw [hfl, List.map_cons, netCover_cons, netCover_nil, sumCover_cons]
        unfold evContrib evDelta
        simp only [if_neg (by norm_num : ¬(1 : Int) = 0),
          if_pos (by norm_num : (1 : Int) > 0)]
        ring
    · rw [if_neg (by
        simp only [decide_eq_true_eq, not_and, not_lt]
        exact fun hc => absurd hc h1)]
      have hfl : (camEvents c).filter (fun e => e.dist ≤ p) = [] := by
        rw [List.filter_eq_nil_iff]
        intro a ha
        unfold camEvents at ha
        rcases List.mem_cons.1 ha with rfl | ha2
        · simpa using h1
        · rw [List.mem_singleton] at ha2
          subst ha2
          simp only [decide_eq_true_eq]
          intro hc
          exact h1 (by linarith)
      rw [hfl, netCover_nil]
      ring

theorem netCover_filter_sorted (d0 d1 : ℚ) (coords : List ℚ) (vc : List Cam) (p : ℚ)
    (hwf : ∀ c ∈ vc, c.dMin ≤ c.dMax) (j : Nat) :
    netCover coords ((sortEvents (buildEvents d0 d1 vc)).filter (fun e => e.dist ≤ p)) j =
      sumCover (activeQ coords vc p) (coords.length + 1) 1 0 ((coords.length : Int) - 2) j := by
  have hperm : ((sortEvents (buildEvents d0 d1 vc)).filter (fun e => e.dist ≤ p)).Perm
      ((buildEvents d0 d1 vc).filter (fun e => e.dist ≤ p)) :=
    (List.perm_insertionSort _ _).filter _
  rw [netCover_perm coords hperm j]
  unfold buildEvents
  rw [netCover_filter_cons_boundary coords _ _ rfl, netCover_filter_cons_boundary coords _ _ rfl]
  exact netCover_camlist coords p vc hwf j

theorem coordAt_zero (C : List ℚ) (hs : C.Sorted (· < ·)) (l0 : ℚ) (hl0 : l0 ∈ C)
    (hmin : ∀ v ∈ C, l0 ≤ v) : coordAt C 0 = l0 := by
  have hlen : 0 < C.length := List.length_pos.2 (List.ne_nil_of_mem hl0)
  have h0m : coordAt C 0 ∈ C := by
    rw [coordAt_eq_get C 0 le_rfl (by exact_mod_cast hlen)]
    exact C.get_mem _ _
  have hk := coordAt_lightIdx C l0 hl0
  have h2 : coordAt C 0 ≤ coordAt C (lightIdx C l0) :=
    coordAt_le_coordAt C hs 0 _ le_rfl (lightIdx_nonneg _ _) (lightIdx_lt_length C l0 hl0)
  rw [hk] at h2
  exact le_antisymm h2 (hmin _ h0m)

theorem coordAt_last (C : List ℚ) (hs : C.Sorted (· < ·)) (l1 : ℚ) (hl1 : l1 ∈ C)
    (hmax : ∀ v ∈ C, v ≤ l1) : coordAt C ((C.length : Int) - 1) = l1 := by
  have hlen : 0 < C.length := List.length_pos.2 (List.ne_nil_of_mem hl1)
  have h0m : coordAt C ((C.length : Int) - 1) ∈ C := by
    rw [coordAt_eq_get C _ (by omega) (by omega)]
    exact C.get_mem _ _
  have hk := coordAt_lightIdx C l1 hl1
  have h2 : coordAt C (lightIdx C l1) ≤ coordAt C ((C.length : Int) - 1) :=
    coordAt_le_coordAt C hs _ _ (lightIdx_nonneg _ _)
      (by have := lightIdx_lt_length C l1 hl1; omega) (by omega)
  rw [hk] at h2
  exact le_antisymm (hmax _ h0m) h2

theorem validCams_wf (d0 d1 l0 l1 : ℚ) (cams : List Cam) (hd : d0 ≤ d1) (hl : l0 ≤ l1)
    (hwf : ∀ c ∈ cams, c.WF) :
    ∀ c ∈ validCams d0 d1 l0 l1 cams,
      d0 ≤ c.dMin ∧ c.dMin ≤ c.dMax ∧ c.dMax ≤ d1 ∧
      l0 ≤ c.lMin ∧ c.lMin ≤ c.lMax ∧ c.lMax ≤ l1 := by
  intro c hc
  unfold validCams at hc
  obtain ⟨c0, hc0, rfl⟩ := List.mem_map.1 hc
  have hfc0 := List.mem_filter.1 hc0
  have hwf0 := hwf c0 hfc0.1
  unfold Cam.WF at hwf0
  have hov : c0.dMax ≥ d0 ∧ c0.dMin ≤ d1 ∧ c0.lMax ≥ l0 ∧ c0.lMin ≤ l1 := by
    have := hfc0.2
    unfold camOverlaps at this
    simpa using this
  unfold clipCam
  refine ⟨le_max_left _ _, ?_, min_le_left _ _, le_max_left _ _, ?_, min_le_left _ _⟩
  · exact max_le (le_min hd hov.1) (le_min hov.2.1 hwf0.1)
  · exact max_le (le_min hl hov.2.2.1) (le_min hov.2.2.2 hwf0.2)

theorem mem_lightValues_of_mem (l0 l1 : ℚ) (vc : List Cam) (c : Cam) (hc : c ∈ vc) :
    c.lMin ∈ lightValues l0 l1 vc ∧ c.lMax ∈ lightValues l0 l1 vc := by
  unfold lightValues
  constructor
  · exact List.mem_cons_of_mem _ (List.mem_cons_of_mem _
      (List.mem_flatMap.2 ⟨c, hc, by simp⟩))
  · exact List.mem_cons_of_mem _ (List.mem_cons_of_mem _
      (List.mem_flatMap.2 ⟨c, hc, by simp⟩))

theorem lightValues_bounds (l0 l1 : ℚ) (vc : List Cam) (h01 : l0 ≤ l1)
    (hvc : ∀ c ∈ vc, l0 ≤ c.lMin ∧ c.lMin ≤ c.lMax ∧ c.lMax ≤ l1) :
    ∀ v ∈ lightValues l0 l1 vc, l0 ≤ v ∧ v ≤ l1 := by
  intro v hv
  unfold lightValues at hv
  rcases List.mem_cons.1 hv with rfl | hv2
  · exact ⟨le_refl v, h01⟩
  rcases List.mem_cons.1 hv2 with rfl | hv3
  · exact ⟨h01, le_refl v⟩
  obtain ⟨c, hc, hvc2⟩ := List.mem_flatMap.1 hv3
  have hb := hvc c hc
  rcases List.mem_cons.1 hvc2 with rfl | hvc3
  · exact ⟨hb.1, le_trans hb.2.1 hb.2.2⟩
  · rw [List.mem_singleton] at hvc3
    subst hvc3
    exact ⟨le_trans hb.1 hb.2.1, hb.2.2⟩

/-! ### From the cached root length to pointwise coverage of the light range -/

theorem sum_ite_ge_iff (s : Finset Int) (b : Int → Bool) (g : Int → ℚ)
    (hpos : ∀ j ∈ s, 0 < g j) :
    ((∑ j in s, if b j then g j else 0) ≥ ∑ j in s, g j ↔ ∀ j ∈ s, b j = true) := by
  constructor
  · intro hge j hj
    by_contra hb
    have hlt : (∑ j in s, if b j then g j else 0) < ∑ j in s, g j := by
      apply Finset.sum_lt_sum
      · intro i hi
        split
        · exact le_refl _
        · exact le_of_lt (hpos i hi)
      · exact ⟨j, hj, by rw [if_neg hb]; exact hpos j hj⟩
    linarith
  · intro hall
    rw [Finset.sum_congr rfl (fun j hj => if_pos (hall j hj))]

/-- Elementary coverage of every compressed cell is the same as pointwise
coverage of every light value of the target range. -/
theorem elem_iff_point (C : List ℚ) (hs : C.Sorted (· < ·)) (l0 l1 : ℚ) (vc : List Cam) (p : ℚ)
    (hlen : 2 ≤ C.length)
    (h0 : coordAt C 0 = l0) (h1 : coordAt C ((C.length : Int) - 1) = l1)
    (hmem : ∀ c ∈ vc, c.lMin ∈ C ∧ c.lMax ∈ C) :
    ((∀ j : Int, 0 ≤ j → j ≤ (C.length : Int) - 2 →
        ∃ c ∈ vc, (c.dMin ≤ p ∧ p < c.dMax) ∧ c.lMin ≤ coordAt C j ∧ coordAt C (j + 1) ≤ c.lMax) ↔
      ∀ y, l0 ≤ y → y ≤ l1 →
        ∃ c ∈ vc, c.dMin ≤ p ∧ p < c.dMax ∧ c.lMin ≤ y ∧ y ≤ c.lMax) := by
  have hlenZ : (2 : Int) ≤ (C.length : Int) := by exact_mod_cast hlen
  constructor
  · intro hall y hy0 hy1
    set s : Finset Int :=
      (Finset.Icc (0 : Int) ((C.length : Int) - 1)).filter (fun i => coordAt C i ≤ y) with hsdef
    have h0s : (0 : Int) ∈ s := by
      rw [hsdef, Finset.mem_filter, Finset.mem_Icc]
      exact ⟨⟨le_refl _, by omega⟩, by rw [h0]; exact hy0⟩
    have hne : s.Nonempty := ⟨0, h0s⟩
    set i0 := s.max' hne with hi0def
    have hi0s : i0 ∈ s := s.max'_mem hne
    rw [hsdef, Finset.mem_filter, Finset.mem_Icc] at hi0s
    obtain ⟨⟨hi0l, hi0r⟩, hi0y⟩ := hi0s
    by_cases htop : i0 = (C.length : Int) - 1
    · have hyl1 : y = l1 := by
        rw [htop, h1] at hi0y
        linarith
      obtain ⟨c, hc, hact, hcl, hcr⟩ :=
        hall ((C.length : Int) - 2) (by omega) (by omega)
      refine ⟨c, hc, hact.1, hact.2, ?_, ?_⟩
      · calc c.lMin ≤ coordAt C ((C.length : Int) - 2) := hcl
          _ ≤ coordAt C ((C.length : Int) - 1) :=
            coordAt_le_coordAt C hs _ _ (by omega) (by omega) (by omega)
          _ = y := by rw [h1, hyl1]
      · have : coordAt C ((C.length : Int) - 2 + 1) = l1 := by
          rw [show (C.length : Int) - 2 + 1 = (C.length : Int) - 1 by ring, h1]
        rw [this, ← hyl1] at hcr
        exact hcr
    · have hi0lt : i0 < (C.length : Int) - 1 := lt_of_le_of_ne hi0r htop
      obtain ⟨c, hc, hact, hcl, hcr⟩ := hall i0 hi0l (by omega)
      have hnext : ¬ (coordAt C (i0 + 1) ≤ y) := by
        intro hcle
        have hmem1 : i0 + 1 ∈ s := by
          rw [hsdef, Finset.mem_filter, Finset.mem_Icc]
          exact ⟨⟨by omega, by omega⟩, hcle⟩
        have := s.le_max' _ hmem1
        rw [← hi0def] at this
        omega
      push_neg at hnext
      exact ⟨c, hc, hact.1, hact.2, le_trans hcl hi0y, le_trans (le_of_lt hnext) hcr⟩
  · intro hall j hj0 hjN
    have hstep : coordAt C j < coordAt C (j + 1) :=
      coordAt_lt_coordAt C hs j (j + 1) hj0 (by omega) (by omega)
    set y : ℚ := (coordAt C j + coordAt C (j + 1)) / 2 with hy
    have hy1 : coordAt C j < y := by rw [hy]; linarith
    have hy2 : y < coordAt C (j + 1) := by rw [hy]; linarith
    have hyl0 : l0 ≤ y := by
      have := coordAt_le_coordAt C hs 0 j le_rfl hj0 (by omega)
      rw [h0] at this
      linarith
    have hyl1 : y ≤ l1 := by
      have := coordAt_le_coordAt C hs (j + 1) ((C.length : Int) - 1)
        (by omega) (by omega) (by omega)
      rw [h1] at this
      linarith
    obtain ⟨c, hc, hd1, hd2, hc1, hc2⟩ := hall y hyl0 hyl1
    obtain ⟨hm1, hm2⟩ := hmem c hc
    refine ⟨c, hc, ⟨hd1, hd2⟩, ?_, ?_⟩
    · have ha : coordAt C (lightIdx C c.lMin) < coordAt C (j + 1) := by
        rw [coordAt_lightIdx C _ hm1]
        linarith
      have halt : lightIdx C c.lMin < j + 1 :=
        (coordAt_lt_iff C hs _ _ (lightIdx_nonneg _ _) (lightIdx_lt_length C _ hm1)
          (by omega) (by omega)).1 ha
      have := coordAt_le_coordAt C hs (lightIdx C c.lMin) j
        (lightIdx_nonneg _ _) (by omega) (by omega)
      rw [coordAt_lightIdx C _ hm1] at this
      exact this
    · have hb : coordAt C j < coordAt C (lightIdx C c.lMax) := by
        rw [coordAt_lightIdx C _ hm2]
        linarith
      have hblt : j < lightIdx C c.lMax :=
        (coordAt_lt_iff C hs _ _ hj0 (by omega) (lightIdx_nonneg _ _)
          (lightIdx_lt_length C _ hm2)).1 hb
      have := coordAt_le_coordAt C hs (j + 1) (lightIdx C c.lMax)
        (by omega) (by omega) (lightIdx_lt_length C _ hm2)
      rw [coordAt_lightIdx C _ hm2] at this
      exact this

/-- The bridge at a gap check: with the counts those of the processed events and
the cached lengths consistent, the root's cached length reaches the required
total exactly when the active cameras cover the whole light range. -/
theorem bridge_check (d0 d1 l0 l1 : ℚ) (vc : List Cam) (hl : l0 < l1)
    (hvc : ∀ c ∈ vc, c.dMin ≤ c.dMax ∧ l0 ≤ c.lMin ∧ c.lMin ≤ c.lMax ∧ c.lMax ≤ l1)
    (p : ℚ) (st : (Nat → Int) × (Nat → ℚ))
    (hcov : ∀ j, st.1 j = netCover (uniqueSorted (lightValues l0 l1 vc))
        ((sortEvents (buildEvents d0 d1 vc)).filter (fun e2 => e2.dist ≤ p)) j)
    (hg : GoodLen (uniqueSorted (lightValues l0 l1 vc)) st.1 st.2
        ((uniqueSorted (lightValues l0 l1 vc)).length + 1) 1 0
        (((uniqueSorted (lightValues l0 l1 vc)).length : Int) - 2)) :
    (st.2 1 ≥ l1 - l0 ↔
      ∀ y, l0 ≤ y → y ≤ l1 → ∃ c ∈ vc, c.dMin ≤ p ∧ p < c.dMax ∧ c.lMin ≤ y ∧ y ≤ c.lMax) := by
  set C := uniqueSorted (lightValues l0 l1 vc) with hC
  have hsC : C.Sorted (· < ·) := uniqueSorted_sortedLt _
  have hl0C : l0 ∈ C := (mem_uniqueSorted _ _).2 (List.mem_cons_self _ _)
  have hl1C : l1 ∈ C :=
    (mem_uniqueSorted _ _).2 (List.mem_cons_of_mem _ (List.mem_cons_self _ _))
  have hCb : ∀ v ∈ C, l0 ≤ v ∧ v ≤ l1 := by
    intro v hv
    exact lightValues_bounds l0 l1 vc (le_of_lt hl)
      (fun c hc => ⟨(hvc c hc).2.1, (hvc c hc).2.2.1, (hvc c hc).2.2.2⟩) v
      ((mem_uniqueSorted _ _).1 hv)
  have hlen2 : 2 ≤ C.length := by
    have hsub : ({l0, l1} : Finset ℚ) ⊆ C.toFinset := by
      intro x hx
      rcases Finset.mem_insert.1 hx with rfl | hx2
      · exact List.mem_toFinset.2 hl0C
      · rw [Finset.mem_singleton] at hx2
        subst hx2
        exact List.mem_toFinset.2 hl1C
    have h1 := Finset.card_le_card hsub
    have h2 := C.toFinset_card_le
    rw [Finset.card_pair (ne_of_lt hl)] at h1
    omega
  have hlenZ : (2 : Int) ≤ (C.length : Int) := by exact_mod_cast hlen2
  have h0 : coordAt C 0 = l0 := coordAt_zero C hsC l0 hl0C (fun v hv => (hCb v hv).1)
  have h1 : coordAt C ((C.length : Int) - 1) = l1 :=
    coordAt_last C hsC l1 hl1C (fun v hv => (hCb v hv).2)
  have hmemC : ∀ c ∈ vc, c.lMin ∈ C ∧ c.lMax ∈ C := by
    intro c hc
    obtain ⟨ha, hb⟩ := mem_lightValues_of_mem l0 l1 vc c hc
    exact ⟨(mem_uniqueSorted _ _).2 ha, (mem_uniqueSorted _ _).2 hb⟩
  have hroot : st.2 1 = specLen C st.1 (C.length + 1) 1 0 ((C.length : Int) - 2) :=
    hg 1 0 ((C.length : Int) - 2) (TNode.refl 1 0 _)
  have hst1 : st.1 = sumCover (activeQ C vc p) (C.length + 1) 1 0 ((C.length : Int) - 2) :=
    funext fun j => by
      rw [hcov j, hC, netCover_filter_sorted d0 d1 _ vc p (fun c hc => (hvc c hc).1) j]
  have hsum : st.2 1 = ∑ j in Finset.Icc (0 : Int) ((C.length : Int) - 2),
      (if pathCov st.1 (C.length + 1) 1 0 ((C.length : Int) - 2) j then
        coordAt C (j + 1) - coordAt C j else 0) := by
    rw [hroot, specLen_eq_sum C st.1 (C.length + 1) 1 0 ((C.length : Int) - 2)
      (by omega) (by omega)]
  have htot : ∑ j in Finset.Icc (0 : Int) ((C.length : Int) - 2),
      (coordAt C (j + 1) - coordAt C j) = l1 - l0 := by
    rw [sum_Icc_telescope (fun i => coordAt C i) 0 ((C.length : Int) - 2) (by omega)]
    rw [show (C.length : Int) - 2 + 1 = (C.length : Int) - 1 by ring, h1, h0]
  have hpos : ∀ j ∈ Finset.Icc (0 : Int) ((C.length : Int) - 2),
      0 < coordAt C (j + 1) - coordAt C j := by
    intro j hj
    rw [Finset.mem_Icc] at hj
    have := coordAt_lt_coordAt C hsC j (j + 1) hj.1 (by omega) (by omega)
    linarith
  have hpc : ∀ j ∈ Finset.Icc (0 : Int) ((C.length : Int) - 2),
      (pathCov st.1 (C.length + 1) 1 0 ((C.length : Int) - 2) j = true ↔
        ∃ c ∈ vc, (c.dMin ≤ p ∧ p < c.dMax) ∧
          c.lMin ≤ coordAt C j ∧ coordAt C (j + 1) ≤ c.lMax) := by
    intro j hj
    rw [Finset.mem_Icc] at hj
    rw [hst1, pathCov_sumCover (activeQ C vc p) (C.length + 1) 1 0 ((C.length : Int) - 2) j
      le_rfl hj.1 hj.2 (by omega)]
    constructor
    · rintro ⟨q, hq, hq1, hq2⟩
      unfold activeQ at hq
      obtain ⟨c, hcf, rfl⟩ := List.mem_map.1 hq
      have hcf2 := List.mem_filter.1 hcf
      have hact : c.dMin ≤ p ∧ p < c.dMax := by
        have := hcf2.2
        simpa using this
      have hc := hcf2.1
      obtain ⟨hm1, hm2⟩ := hmemC c hc
      dsimp only at hq1 hq2
      refine ⟨c, hc, hact, ?_, ?_⟩
      · have := coordAt_le_coordAt C hsC (lightIdx C c.lMin) j
          (lightIdx_nonneg _ _) hq1 (by omega)
        rw [coordAt_lightIdx C _ hm1] at this
        exact this
      · have := coordAt_le_coordAt C hsC (j + 1) (lightIdx C c.lMax)
          (by omega) (by omega) (lightIdx_lt_length C _ hm2)
        rw [coordAt_lightIdx C _ hm2] at this
        exact this
    · rintro ⟨c, hc, hact, hcl, hcr⟩
      obtain ⟨hm1, hm2⟩ := hmemC c hc
      refine ⟨(lightIdx C c.lMin, lightIdx C c.lMax - 1), ?_, ?_, ?_⟩
      · unfold activeQ
        exact List.mem_map_of_mem _ (List.mem_filter.2 ⟨hc, by simpa using hact⟩)
      · dsimp only
        have ha : coordAt C (lightIdx C c.lMin) ≤ coordAt C j := by
          rw [coordAt_lightIdx C _ hm1]
          exact hcl
        exact (coordAt_le_iff C hsC _ _ (lightIdx_nonneg _ _)
          (lightIdx_lt_length C _ hm1) hj.1 (by omega)).1 ha
      · dsimp only
        have hb : coordAt C (j + 1) ≤ coordAt C (lightIdx C c.lMax) := by
          rw [coordAt_lightIdx C _ hm2]
          exact hcr
        have := (coordAt_le_iff C hsC _ _ (by omega) (by omega) (lightIdx_nonneg _ _)
          (lightIdx_lt_length C _ hm2)).1 hb
        omega
  rw [hsum, ← htot,
    sum_ite_ge_iff _ (fun j => pathCov st.1 (C.length + 1) 1 0 ((C.length : Int) - 2) j)
      (fun j => coordAt C (j + 1) - coordAt C j) hpos]
  rw [← elem_iff_point C hsC l0 l1 vc p hlen2 h0 h1 hmemC]
  constructor
  · intro hall j hj0 hjN
    exact ((hpc j (Finset.mem_Icc.2 ⟨hj0, hjN⟩)).1 (hall j (Finset.mem_Icc.2 ⟨hj0, hjN⟩)))
  · intro hall j hj
    rw [Finset.mem_Icc] at hj
    exact (hpc j (Finset.mem_Icc.2 hj)).2 (hall j hj.1 hj.2)

/-! ### The freshly built tree -/

/-- With all counts zero the recompute rule yields `0` everywhere. -/
theorem specLen_zero (coords : List ℚ) (fuel : Nat) :
    ∀ (idx : Nat) (l r : Int), specLen coords (fun _ => 0) fuel idx l r = 0 := by
  induction fuel with
  | zero => intro idx l r; rfl
  | succ fuel ih =>
    intro idx l r
    rw [specLen]
    rw [if_neg (by norm_num : ¬ ((fun _ => (0 : Int)) idx > 0))]
    split
    · rfl
    · rw [ih, ih, add_zero]

/-- `_build` only writes zeros into an all-zero map. -/
theorem buildAux_zero (fuel : Nat) :
    ∀ (clen : Nat → ℚ) (idx : Nat) (l r : Int), (∀ j, clen j = 0) →
      ∀ j, buildAux fuel clen idx l r j = 0 := by
  induction fuel with
  | zero => intro clen idx l r h j; exact h j
  | succ fuel ih =>
    intro clen idx l r h j
    rw [buildAux]
    by_cases h1 : l > r
    · rw [if_pos h1]
      exact h j
    · rw [if_neg h1]
      by_cases h2 : l = r
      · rw [if_pos h2]
        by_cases hj : j = idx
        · subst hj
          rw [Function.update_same]
        · rw [Function.update_noteq hj]
          exact h j
      · rw [if_neg h2]
        by_cases hj : j = idx
        · subst hj
          rw [Function.update_same]
        · rw [Function.update_noteq hj]
          exact ih _ _ _ _ (fun j2 => ih _ _ _ _ h j2) j

/-- The freshly built tree satisfies the cached-length invariant for the
all-zero counts. -/
theorem buildAux_GoodLen (coords : List ℚ) :
    GoodLen coords (fun _ => 0)
      (buildAux (coords.length + 1) (fun _ => 0) 1 0 ((coords.length : Int) - 2))
      (coords.length + 1) 1 0 ((coords.length : Int) - 2) := by
  intro i l r t
  rw [buildAux_zero _ _ _ _ _ (fun j => rfl) i, specLen_zero]

/-! ### The sorted event list -/

instance : IsTotal Ev (fun a b => a.dist ≤ b.dist) :=
  ⟨fun a b => le_total a.dist b.dist⟩

instance : IsTrans Ev (fun a b => a.dist ≤ b.dist) :=
  ⟨fun _ _ _ h1 h2 => le_trans h1 h2⟩

theorem sortEvents_sorted (es : List Ev) :
    (sortEvents es).Pairwise (fun a b => a.dist ≤ b.dist) :=
  List.sorted_insertionSort _ es

theorem sortEvents_perm (es : List Ev) : (sortEvents es).Perm es :=
  List.perm_insertionSort _ es

/-- Distances of all generated events stay within the target's distance range,
for any clipped camera list whose members passed the overlap test. -/
theorem buildEvents_dist_bounds (d0 d1 : ℚ) (vc : List Cam) (hd : d0 ≤ d1)
    (hvc : ∀ c ∈ vc, d0 ≤ c.dMin ∧ c.dMin ≤ d1 ∧ d0 ≤ c.dMax ∧ c.dMax ≤ d1) :
    ∀ e ∈ buildEvents d0 d1 vc, d0 ≤ e.dist ∧ e.dist ≤ d1 := by
  intro e he
  unfold buildEvents at he
  rcases List.mem_cons.1 he with rfl | he2
  · exact ⟨le_refl _, hd⟩
  rcases List.mem_cons.1 he2 with rfl | he3
  · exact ⟨hd, le_refl _⟩
  obtain ⟨c, hc, hce⟩ := List.mem_flatMap.1 he3
  have hb := hvc c hc
  unfold camEvents at hce
  rcases List.mem_cons.1 hce with rfl | hce2
  · exact ⟨hb.1, hb.2.1⟩
  · rw [List.mem_singleton] at hce2
    subst hce2
    exact ⟨hb.2.2.1, hb.2.2.2⟩

theorem buildEvents_ne_nil (d0 d1 : ℚ) (vc : List Cam) : buildEvents d0 d1 vc ≠ [] := by
  unfold buildEvents
  exact List.cons_ne_nil _ _

theorem sortEvents_build_ne_nil (d0 d1 : ℚ) (vc : List Cam) :
    sortEvents (buildEvents d0 d1 vc) ≠ [] := by
  intro h
  have := (sortEvents_perm (buildEvents d0 d1 vc)).length_eq
  rw [h] at this
  exact buildEvents_ne_nil d0 d1 vc (List.length_eq_zero.1 this.symm)

/-- The head of the sorted event list sits at the lower distance bound. -/
theorem sortEvents_head_dist (d0 d1 : ℚ) (vc : List Cam) (hd : d0 ≤ d1)
    (hvc : ∀ c ∈ vc, d0 ≤ c.dMin ∧ c.dMin ≤ d1 ∧ d0 ≤ c.dMax ∧ c.dMax ≤ d1) :
    ((sortEvents (buildEvents d0 d1 vc)).headD ⟨0, 0, 0, 0⟩).dist = d0 := by
  set S := sortEvents (buildEvents d0 d1 vc) with hS
  obtain ⟨e, rest, hcons⟩ := List.exists_cons_of_ne_nil (sortEvents_build_ne_nil d0 d1 vc)
  rw [← hS] at hcons
  rw [hcons, List.headD_cons]
  have hbnd : ∀ f ∈ S, d0 ≤ f.dist ∧ f.dist ≤ d1 := by
    intro f hf
    exact buildEvents_dist_bounds d0 d1 vc hd hvc f ((sortEvents_perm _).subset hf)
  have hd0mem : (⟨d0, 0, 0, 0⟩ : Ev) ∈ S := by
    rw [hS]
    exact ((sortEvents_perm _).mem_iff).2 (List.mem_cons_self _ _)
  have hmin : ∀ f ∈ S, e.dist ≤ f.dist := by
    have hps := sortEvents_sorted (buildEvents d0 d1 vc)
    rw [← hS, hcons] at hps
    intro f hf
    rw [hcons] at hf
    rcases List.mem_cons.1 hf with rfl | hf2
    · exact le_refl _
    · exact (List.pairwise_cons.1 hps).1 f hf2
  have h1 := hmin _ hd0mem
  have h2 := (hbnd e (by rw [hcons]; exact List.mem_cons_self _ _)).1
  exact le_antisymm h1 h2

/-! ### Sweeps that can never fail -/

/-- If every remaining event sits at the previous distance, no gap ever opens
and the sweep accepts. -/
theorem sweep_const (d0 d1 T : ℚ) (coords : List ℚ) :
    ∀ (es : List Ev) (prev : ℚ) (cover : Nat → Int) (clen : Nat → ℚ),
      (∀ e ∈ es, e.dist = prev) →
      sweep d0 d1 T coords prev cover clen es = true := by
  intro es
  induction es with
  | nil => intro prev cover clen h; rfl
  | cons e es ih =>
    intro prev cover clen h
    have he : e.dist = prev := h e (List.mem_cons_self _ _)
    rw [sweep, if_neg (by rintro ⟨hgt, -⟩; rw [he] at hgt; exact lt_irrefl _ hgt)]
    exact ih e.dist _ _ (fun f hf => by rw [h f (List.mem_cons_of_mem _ hf), he])

/-- With an inverted target distance range the clamped gap is always empty and
the sweep accepts. -/
theorem sweep_d1_lt_d0 (d0 d1 T : ℚ) (coords : List ℚ) (hinv : d1 < d0) :
    ∀ (es : List Ev) (prev : ℚ) (cover : Nat → Int) (clen : Nat → ℚ),
      sweep d0 d1 T coords prev cover clen es = true := by
  intro es
  induction es with
  | nil => intro prev cover clen; rfl
  | cons e es ih =>
    intro prev cover clen
    rw [sweep, if_neg (by
      rintro ⟨-, hmin, -⟩
      have h1 : min e.dist d1 ≤ d1 := min_le_right _ _
      have h2 : d0 ≤ max prev d0 := le_max_right _ _
      linarith)]
    exact ih e.dist _ _

/-- Under the cached-length invariant the root's cached length is a sum of
nonnegative cell widths, hence nonnegative. -/
theorem GoodLen_root_nonneg (coords : List ℚ) (hs : coords.Sorted (· < ·))
    (hne : coords ≠ []) (cover : Nat → Int) (clen : Nat → ℚ)
    (hg : GoodLen coords cover clen (coords.length + 1) 1 0 ((coords.length : Int) - 2)) :
    0 ≤ clen 1 := by
  have hlen : 1 ≤ coords.length := List.length_pos.2 hne
  rw [hg 1 0 ((coords.length : Int) - 2) (TNode.refl 1 0 _),
    specLen_eq_sum coords cover (coords.length + 1) 1 0 ((coords.length : Int) - 2)
      (by omega) (by omega)]
  apply Finset.sum_nonneg
  intro j hj
  rw [Finset.mem_Icc] at hj
  have hw : 0 ≤ coordAt coords (j + 1) - coordAt coords j := by
    have := coordAt_lt_coordAt coords hs j (j + 1) hj.1 (by omega) (by omega)
    linarith
  split
  · exact hw
  · exact le_refl _

/-- With a nonpositive required total every gap check passes and the sweep
accepts, as long as the cached-length invariant holds. -/
theorem sweep_nonpos_total (d0 d1 T : ℚ) (coords : List ℚ) (hs : coords.Sorted (· < ·))
    (hne : coords ≠ []) (hT : T ≤ 0) :
    ∀ (es : List Ev) (prev : ℚ) (st : (Nat → Int) × (Nat → ℚ)),
      GoodLen coords st.1 st.2 (coords.length + 1) 1 0 ((coords.length : Int) - 2) →
      sweep d0 d1 T coords prev st.1 st.2 es = true := by
  intro es
  induction es with
  | nil => intro prev st hg; rfl
  | cons e es ih =>
    intro prev st hg
    have hnn := GoodLen_root_nonneg coords hs hne st.1 st.2 hg
    rw [sweep, if_neg (by rintro ⟨-, -, hlt⟩; linarith)]
    exact ih e.dist (stepState coords st e) (stepState_GoodLen coords st e hg)

/-- Unfolding of `canCoverAll` to the sweep call on the main path. -/
theorem canCoverAll_eq_sweep (d0 d1 l0 l1 : ℚ) (cams : List Cam)
    (hdeg : ¬(d0 = d1 ∧ l0 = l1)) (hcams : cams ≠ [])
    (hvc : validCams d0 d1 l0 l1 cams ≠ []) :
    canCoverAll d0 d1 l0 l1 cams =
      sweep d0 d1 (l1 - l0) (uniqueSorted (lightValues l0 l1 (validCams d0 d1 l0 l1 cams)))
        (((sortEvents (buildEvents d0 d1 (validCams d0 d1 l0 l1 cams))).headD
          ⟨0, 0, 0, 0⟩).dist)
        (fun _ => 0)
        (buildAux ((uniqueSorted (lightValues l0 l1 (validCams d0 d1 l0 l1 cams))).length + 1)
          (fun _ => 0) 1 0
          (((uniqueSorted (lightValues l0 l1 (validCams d0 d1 l0 l1 cams))).length : Int) - 2))
        (sortEvents (buildEvents d0 d1 (validCams d0 d1 l0 l1 cams))) := by
  unfold canCoverAll
  rw [if_neg hdeg, if_neg (by
    intro h
    exact hcams (List.length_eq_zero.1 h)),
    if_neg (by
    intro h
    exact hvc (List.length_eq_zero.1 h))]

/-! ### Geometry: adjacent sweep positions versus the full rectangle -/

/-- Coverage of the whole light range at the lower end of every adjacent pair
of event distances is the same as coverage of the whole closed target
rectangle. -/
theorem adjQ_iff_coversTarget (d0 d1 l0 l1 : ℚ) (vc : List Cam) (D : List ℚ)
    (hd : d0 < d1)
    (hvc : ∀ c ∈ vc, d0 ≤ c.dMin ∧ c.dMin ≤ c.dMax ∧ c.dMax ≤ d1)
    (hD : ∀ m, m ∈ D ↔ (m = d0 ∨ m = d1 ∨ ∃ c ∈ vc, m = c.dMin ∨ m = c.dMax)) :
    ((∀ p d, AdjPair D p d →
        ∀ y, l0 ≤ y → y ≤ l1 → ∃ c ∈ vc, c.dMin ≤ p ∧ p < c.dMax ∧ c.lMin ≤ y ∧ y ≤ c.lMax) ↔
      CoversTarget d0 d1 l0 l1 vc) := by
  have hDb : ∀ m ∈ D, d0 ≤ m ∧ m ≤ d1 := by
    intro m hm
    rcases (hD m).1 hm with rfl | rfl | ⟨c, hc, rfl | rfl⟩
    · exact ⟨le_refl _, le_of_lt hd⟩
    · exact ⟨le_of_lt hd, le_refl _⟩
    · exact ⟨(hvc c hc).1, le_trans (hvc c hc).2.1 (hvc c hc).2.2⟩
    · exact ⟨le_trans (hvc c hc).1 (hvc c hc).2.1, (hvc c hc).2.2⟩
  have hd0D : d0 ∈ D := (hD d0).2 (Or.inl rfl)
  have hd1D : d1 ∈ D := (hD d1).2 (Or.inr (Or.inl rfl))
  constructor
  · intro hadj
    unfold CoversTarget
    intro x y hx0 hx1 hy0 hy1
    by_cases hxd1 : x < d1
    · set s1 := D.toFinset.filter (fun m => m ≤ x) with hs1
      have hne1 : s1.Nonempty :=
        ⟨d0, by rw [hs1, Finset.mem_filter]; exact ⟨List.mem_toFinset.2 hd0D, hx0⟩⟩
      set p := s1.max' hne1 with hp
      have hps1 : p ∈ s1 := s1.max'_mem hne1
      rw [hs1, Finset.mem_filter, List.mem_toFinset] at hps1
      set s2 := D.toFinset.filter (fun m => x < m) with hs2
      have hne2 : s2.Nonempty :=
        ⟨d1, by rw [hs2, Finset.mem_filter]; exact ⟨List.mem_toFinset.2 hd1D, hxd1⟩⟩
      set d := s2.min' hne2 with hdd
      have hds2 : d ∈ s2 := s2.min'_mem hne2
      rw [hs2, Finset.mem_filter, List.mem_toFinset] at hds2
      have hpd : p < d := lt_of_le_of_lt hps1.2 hds2.2
      have hblk : ∀ m ∈ D, ¬(p < m ∧ m < d) := by
        rintro m hm ⟨hm1, hm2⟩
        by_cases hmx : m ≤ x
        · have : m ≤ p := s1.le_max' m
            (by rw [hs1, Finset.mem_filter]; exact ⟨List.mem_toFinset.2 hm, hmx⟩)
          linarith
        · push_neg at hmx
          have : d ≤ m := s2.min'_le m
            (by rw [hs2, Finset.mem_filter]; exact ⟨List.mem_toFinset.2 hm, hmx⟩)
          linarith
      obtain ⟨c, hc, h1, h2, h3, h4⟩ :=
        hadj p d ⟨hps1.1, hds2.1, hpd, hblk⟩ y hy0 hy1
      refine ⟨c, hc, ?_⟩
      unfold Cam.covers
      refine ⟨le_trans h1 hps1.2, ?_, h3, h4⟩
      have hmD : c.dMax ∈ D := (hD c.dMax).2 (Or.inr (Or.inr ⟨c, hc, Or.inr rfl⟩))
      have hdle : d ≤ c.dMax := by
        by_contra hlt
        push_neg at hlt
        exact hblk c.dMax hmD ⟨h2, hlt⟩
      linarith [hds2.2]
    · have hxe : x = d1 := le_antisymm hx1 (not_lt.1 hxd1)
      set s1 := D.toFinset.filter (fun m => m < d1) with hs1
      have hne1 : s1.Nonempty :=
        ⟨d0, by rw [hs1, Finset.mem_filter]; exact ⟨List.mem_toFinset.2 hd0D, hd⟩⟩
      set p := s1.max' hne1 with hp
      have hps1 : p ∈ s1 := s1.max'_mem hne1
      rw [hs1, Finset.mem_filter, List.mem_toFinset] at hps1
      have hblk : ∀ m ∈ D, ¬(p < m ∧ m < d1) := by
        rintro m hm ⟨hm1, hm2⟩
        have : m ≤ p := s1.le_max' m
          (by rw [hs1, Finset.mem_filter]; exact ⟨List.mem_toFinset.2 hm, hm2⟩)
        linarith
      obtain ⟨c, hc, h1, h2, h3, h4⟩ :=
        hadj p d1 ⟨hps1.1, hd1D, hps1.2, hblk⟩ y hy0 hy1
      refine ⟨c, hc, ?_⟩
      unfold Cam.covers
      refine ⟨by rw [hxe]; linarith [hps1.2], ?_, h3, h4⟩
      have hmD : c.dMax ∈ D := (hD c.dMax).2 (Or.inr (Or.inr ⟨c, hc, Or.inr rfl⟩))
      have hdle : d1 ≤ c.dMax := by
        by_contra hlt
        push_neg at hlt
        exact hblk c.dMax hmD ⟨h2, hlt⟩
      rw [hxe]
      exact hdle
  · intro hcov p d hpd y hy0 hy1
    obtain ⟨hpD, hdD, hplt, hblk⟩ := hpd
    have hpb := hDb p hpD
    have hdb := hDb d hdD
    set x := (p + d) / 2 with hx
    have hx1 : p < x := by rw [hx]; linarith
    have hx2 : x < d := by rw [hx]; linarith
    obtain ⟨c, hc, hccov⟩ := hcov x y (by linarith [hpb.1]) (by linarith [hdb.2]) hy0 hy1
    unfold Cam.covers at hccov
    obtain ⟨hc1, hc2, hc3, hc4⟩ := hccov
    refine ⟨c, hc, ?_, ?_, hc3, hc4⟩
    · by_contra hgt
      push_neg at hgt
      have hmD : c.dMin ∈ D := (hD c.dMin).2 (Or.inr (Or.inr ⟨c, hc, Or.inl rfl⟩))
      exact hblk c.dMin hmD ⟨hgt, by linarith⟩
    · linarith

/-- Clipping to the target changes no coverage of points inside the target. -/
theorem coversTarget_validCams (d0 d1 l0 l1 : ℚ) (cams : List Cam) :
    (CoversTarget d0 d1 l0 l1 (validCams d0 d1 l0 l1 cams) ↔
      CoversTarget d0 d1 l0 l1 cams) := by
  unfold CoversTarget
  constructor
  · intro h x y hx0 hx1 hy0 hy1
    obtain ⟨c', hc', hcov⟩ := h x y hx0 hx1 hy0 hy1
    unfold validCams at hc'
    obtain ⟨c, hcf, rfl⟩ := List.mem_map.1 hc'
    have hcm := (List.mem_filter.1 hcf).1
    unfold Cam.covers clipCam at hcov
    obtain ⟨h1, h2, h3, h4⟩ := hcov
    dsimp only at h1 h2 h3 h4
    refine ⟨c, hcm, ?_⟩
    unfold Cam.covers
    exact ⟨le_trans (le_max_right _ _) h1, le_trans h2 (min_le_right _ _),
      le_trans (le_max_right _ _) h3, le_trans h4 (min_le_right _ _)⟩
  · intro h x y hx0 hx1 hy0 hy1
    obtain ⟨c, hc, hcov⟩ := h x y hx0 hx1 hy0 hy1
    unfold Cam.covers at hcov
    obtain ⟨h1, h2, h3, h4⟩ := hcov
    refine ⟨clipCam d0 d1 l0 l1 c, ?_, ?_⟩
    · unfold validCams
      apply List.mem_map_of_mem
      apply List.mem_filter.2
      refine ⟨hc, ?_⟩
      unfold camOverlaps
      simp only [ge_iff_le, decide_eq_true_eq, Bool.decide_and, Bool.and_eq_true]
      refine ⟨by linarith, by linarith, by linarith, by linarith⟩
    · unfold Cam.covers clipCam
      exact ⟨max_le hx0 h1, le_min hx1 h2, max_le hy0 h3, le_min hy1 h4⟩

theorem mem_dist_buildEvents (d0 d1 : ℚ) (vc : List Cam) (m : ℚ) :
    (m ∈ (buildEvents d0 d1 vc).map Ev.dist ↔
      m = d0 ∨ m = d1 ∨ ∃ c ∈ vc, m = c.dMin ∨ m = c.dMax) := by
  unfold buildEvents camEvents
  rw [List.map_cons, List.map_cons, List.mem_cons, List.mem_cons]
  constructor
  · rintro (rfl | rfl | h)
    · exact Or.inl rfl
    · exact Or.inr (Or.inl rfl)
    · rw [List.mem_map] at h
      obtain ⟨e, he, rfl⟩ := h
      rw [List.mem_flatMap] at he
      obtain ⟨c, hc, hce⟩ := he
      rcases List.mem_cons.1 hce with rfl | hce2
      · exact Or.inr (Or.inr ⟨c, hc, Or.inl rfl⟩)
      · rw [List.mem_singleton] at hce2
        subst hce2
        exact Or.inr (Or.inr ⟨c, hc, Or.inr rfl⟩)
  · rintro (rfl | rfl | ⟨c, hc, rfl | rfl⟩)
    · exact Or.inl rfl
    · exact Or.inr (Or.inl rfl)
    · refine Or.inr (Or.inr ?_)
      rw [List.mem_map]
      exact ⟨⟨c.dMin, 1, c.lMin, c.lMax⟩,
        List.mem_flatMap.2 ⟨c, hc, List.mem_cons_self _ _⟩, rfl⟩
    · refine Or.inr (Or.inr ?_)
      rw [List.mem_map]
      exact ⟨⟨c.dMax, -1, c.lMin, c.lMax⟩, List.mem_flatMap.2 ⟨c, hc, by simp⟩, rfl⟩

/-- Full characterization on a nondegenerate target with well-formed cameras:
the program accepts exactly when the cameras cover the whole target
rectangle. -/
theorem canCoverAll_iff_covers (d0 d1 l0 l1 : ℚ) (cams : List Cam)
    (hd : d0 < d1) (hl : l0 < l1) (hwf : ∀ c ∈ cams, c.WF) :
    (canCoverAll d0 d1 l0 l1 cams = true ↔ CoversTarget d0 d1 l0 l1 cams) := by
  have hdeg : ¬(d0 = d1 ∧ l0 = l1) := fun h => absurd h.1 (ne_of_lt hd)
  have hnotnil : ¬ CoversTarget d0 d1 l0 l1 ([] : List Cam) := by
    intro h
    obtain ⟨c, hc, -⟩ := h d0 l0 le_rfl (le_of_lt hd) le_rfl (le_of_lt hl)
    exact absurd hc (List.not_mem_nil c)
  by_cases hcams : cams = []
  · subst hcams
    rw [canCoverAll_vcnil d0 d1 l0 l1 [] hdeg rfl]
    constructor
    · intro h
      exact absurd h Bool.false_ne_true
    · intro h
      exact absurd h hnotnil
  · by_cases hvc : validCams d0 d1 l0 l1 cams = []
    · rw [canCoverAll_vcnil d0 d1 l0 l1 cams hdeg hvc]
      rw [← coversTarget_validCams d0 d1 l0 l1 cams, hvc]
      constructor
      · intro h
        exact absurd h Bool.false_ne_true
      · intro h
        exact absurd h hnotnil
    · set vc := validCams d0 d1 l0 l1 cams with hvcdef
      have hvcwf := validCams_wf d0 d1 l0 l1 cams (le_of_lt hd) (le_of_lt hl) hwf
      set S := sortEvents (buildEvents d0 d1 vc) with hSdef
      set coords := uniqueSorted (lightValues l0 l1 vc) with hCdef
      have hdistb : ∀ c ∈ vc, d0 ≤ c.dMin ∧ c.dMin ≤ d1 ∧ d0 ≤ c.dMax ∧ c.dMax ≤ d1 := by
        intro c hc
        obtain ⟨a1, a2, a3, -, -, -⟩ := hvcwf c hc
        exact ⟨a1, le_trans a2 a3, le_trans a1 a2, a3⟩
      have hprev : ((S.headD ⟨0, 0, 0, 0⟩).dist) = d0 :=
        sortEvents_head_dist d0 d1 vc (le_of_lt hd) hdistb
      have hdS : ∀ e ∈ S, d0 ≤ e.dist ∧ e.dist ≤ d1 := fun e he =>
        buildEvents_dist_bounds d0 d1 vc (le_of_lt hd) hdistb e ((sortEvents_perm _).subset he)
      rw [canCoverAll_eq_sweep d0 d1 l0 l1 cams hdeg hcams hvc]
      rw [sweep_eq_true_iff]
      have hmaster := sweepOKP_iff_adj d0 d1 (l1 - l0) coords
        (fun p => ∀ y, l0 ≤ y → y ≤ l1 →
          ∃ c ∈ vc, c.dMin ≤ p ∧ p < c.dMax ∧ c.lMin ≤ y ∧ y ≤ c.lMax)
        S
        (fun p st hp0 hp1 hcov hg =>
          bridge_check d0 d1 l0 l1 vc hl
            (fun c hc => ⟨(hvcwf c hc).2.1, (hvcwf c hc).2.2.2.1, (hvcwf c hc).2.2.2.2.1,
              (hvcwf c hc).2.2.2.2.2⟩) p st hcov hg)
        (sortEvents_sorted _) hdS S [] ((S.headD ⟨0, 0, 0, 0⟩).dist)
        ((fun _ => 0), buildAux (coords.length + 1) (fun _ => 0) 1 0 ((coords.length : Int) - 2))
        (List.nil_append S).symm (by intro e he; cases he)
        (by rw [hprev]; intro e he; exact (hdS e he).1)
        (by rw [hprev]) (by rw [hprev]; exact le_of_lt hd)
        (fun j => rfl) (buildAux_GoodLen coords)
      rw [hmaster]
      rw [← coversTarget_validCams d0 d1 l0 l1 cams]
      have hDchar : ∀ m, (m ∈ ((S.headD ⟨0, 0, 0, 0⟩).dist :: S.map Ev.dist) ↔
          (m = d0 ∨ m = d1 ∨ ∃ c ∈ vc, m = c.dMin ∨ m = c.dMax)) := by
        intro m
        rw [List.mem_cons, hprev,
          ((sortEvents_perm (buildEvents d0 d1 vc)).map Ev.dist).mem_iff,
          mem_dist_buildEvents d0 d1 vc m]
        constructor
        · rintro (rfl | h)
          · exact Or.inl rfl
          · exact h
        · intro h
          exact Or.inr h
      exact adjQ_iff_coversTarget d0 d1 l0 l1 vc _ hd
        (fun c hc => ⟨(hvcwf c hc).1, (hvcwf c hc).2.1, (hvcwf c hc).2.2.1⟩) hDchar

/-- C1 (amended): for every strictly nondegenerate target (distanceMin <
distanceMax and lightMin < lightMax) and every list of well-formed rectangles,
`coverage_check` returns `true` if and only if the union of the rectangles,
each viewed as a closed region, contains every point of the closed target
rectangle.  (As stated, with degenerate well-formed targets allowed, the claim
fails: see the counterexample.) -/
theorem coverage_check_iff (d0 d1 l0 l1 : ℚ) (cams : List Cam)
    (hd : d0 < d1) (hl : l0 < l1) (hwf : ∀ c ∈ cams, c.WF) :
    (canCoverAll d0 d1 l0 l1 cams = true ↔ CoversTarget d0 d1 l0 l1 cams) :=
  canCoverAll_iff_covers d0 d1 l0 l1 cams hd hl hwf

theorem coverage_check_iff_witness :
    (0 : ℚ) < 2 ∧ (0 : ℚ) < 3 ∧ (∀ c ∈ [Cam.mk 0 2 0 3], c.WF) ∧
    (canCoverAll 0 2 0 3 [Cam.mk 0 2 0 3] = true ↔ CoversTarget 0 2 0 3 [Cam.mk 0 2 0 3]) :=
  ⟨by norm_num, by norm_num, by decide,
    coverage_check_iff 0 2 0 3 [Cam.mk 0 2 0 3] (by norm_num) (by norm_num) (by decide)⟩

/-- C10: for every target degenerate on exactly one axis, `coverage_check`
returns `true` whenever at least one input rectangle passes the overlap test,
regardless of actual coverage of the degenerate segment: with equal distance
bounds every event sits at that distance so no gap check ever fires, and with
equal light bounds the required total is `0` so every check passes. -/
theorem coverage_check_one_axis_degenerate (d0 d1 l0 l1 : ℚ) (cams : List Cam)
    (hdeg : (d0 = d1 ∧ l0 < l1) ∨ (d0 < d1 ∧ l0 = l1))
    (hov : ∃ c ∈ cams, camOverlaps d0 d1 l0 l1 c = true) :
    canCoverAll d0 d1 l0 l1 cams = true := by
  obtain ⟨c0, hc0, hc0ov⟩ := hov
  have hcams : cams ≠ [] := List.ne_nil_of_mem hc0
  have hvcne : validCams d0 d1 l0 l1 cams ≠ [] := by
    intro h
    have hm : clipCam d0 d1 l0 l1 c0 ∈ validCams d0 d1 l0 l1 cams :=
      List.mem_map_of_mem _ (List.mem_filter.2 ⟨hc0, hc0ov⟩)
    rw [h] at hm
    exact absurd hm (List.not_mem_nil _)
  have hdeg' : ¬(d0 = d1 ∧ l0 = l1) := by
    rcases hdeg with ⟨h1, h2⟩ | ⟨h1, h2⟩
    · exact fun h => absurd h.2 (ne_of_lt h2)
    · exact fun h => absurd h.1 (ne_of_lt h1)
  rw [canCoverAll_eq_sweep d0 d1 l0 l1 cams hdeg' hcams hvcne]
  rcases hdeg with ⟨h1, -⟩ | ⟨-, h2⟩
  · subst h1
    have hvcd : ∀ c ∈ validCams d0 d0 l0 l1 cams, c.dMin = d0 ∧ c.dMax = d0 := by
      intro c hc
      unfold validCams at hc
      obtain ⟨c1, hc1f, rfl⟩ := List.mem_map.1 hc
      have hov2 : c1.dMax ≥ d0 ∧ c1.dMin ≤ d0 := by
        have := (List.mem_filter.1 hc1f).2
        unfold camOverlaps at this
        simp only [ge_iff_le, decide_eq_true_eq, Bool.decide_and, Bool.and_eq_true] at this
        exact ⟨this.1, this.2.1⟩
      unfold clipCam
      exact ⟨max_eq_left hov2.2, min_eq_left hov2.1⟩
    have hdistb : ∀ c ∈ validCams d0 d0 l0 l1 cams,
        d0 ≤ c.dMin ∧ c.dMin ≤ d0 ∧ d0 ≤ c.dMax ∧ c.dMax ≤ d0 := by
      intro c hc
      obtain ⟨e1, e2⟩ := hvcd c hc
      exact ⟨le_of_eq e1.symm, le_of_eq e1, le_of_eq e2.symm, le_of_eq e2⟩
    have hprev := sortEvents_head_dist d0 d0 (validCams d0 d0 l0 l1 cams) le_rfl hdistb
    apply sweep_const
    intro e he
    rw [hprev]
    have := buildEvents_dist_bounds d0 d0 (validCams d0 d0 l0 l1 cams) le_rfl hdistb e
      ((sortEvents_perm _).subset he)
    linarith [this.1, this.2]
  · subst h2
    have hco : l0 ∈ uniqueSorted (lightValues l0 l0 (validCams d0 d1 l0 l0 cams)) :=
      (mem_uniqueSorted _ _).2 (List.mem_cons_self _ _)
    exact sweep_nonpos_total d0 d1 (l0 - l0)
      (uniqueSorted (lightValues l0 l0 (validCams d0 d1 l0 l0 cams)))
      (uniqueSorted_sortedLt _) (List.ne_nil_of_mem hco) (by linarith)
      (sortEvents (buildEvents d0 d1 (validCams d0 d1 l0 l0 cams)))
      (((sortEvents (buildEvents d0 d1 (validCams d0 d1 l0 l0 cams))).headD
        ⟨0, 0, 0, 0⟩).dist)
      ((fun _ => 0),
        buildAux ((uniqueSorted (lightValues l0 l0 (validCams d0 d1 l0 l0 cams))).length + 1)
          (fun _ => 0) 1 0
          (((uniqueSorted (lightValues l0 l0 (validCams d0 d1 l0 l0 cams))).length : Int) - 2))
      (buildAux_GoodLen _)

theorem coverage_check_one_axis_degenerate_witness :
    (((0 : ℚ) = 0 ∧ (0 : ℚ) < 1) ∨ ((0 : ℚ) < 0 ∧ (0 : ℚ) = 1)) ∧
    (∃ c ∈ [Cam.mk 0 0 1 1], camOverlaps 0 0 0 1 c = true) ∧
    canCoverAll 0 0 0 1 [Cam.mk 0 0 1 1] = true :=
  ⟨Or.inl ⟨rfl, by norm_num⟩, ⟨Cam.mk 0 0 1 1, by decide, by decide⟩,
    coverage_check_one_axis_degenerate 0 0 0 1 [Cam.mk 0 0 1 1]
      (Or.inl ⟨rfl, by norm_num⟩) ⟨Cam.mk 0 0 1 1, by decide, by decide⟩⟩

/-! ### The state of the tree after a processed prefix of the sweep -/

/-- The `(coverCount, coveredLen)` state after processing a list of events,
starting from the freshly built tree. -/
def sweepState (coords : List ℚ) (es : List Ev) : (Nat → Int) × (Nat → ℚ) :=
  es.foldl (stepState coords)
    ((fun _ => 0), buildAux (coords.length + 1) (fun _ => 0) 1 0 ((coords.length : Int) - 2))

theorem foldl_stepState_cover (coords : List ℚ) :
    ∀ (es : List Ev) (st : (Nat → Int) × (Nat → ℚ)) (j : Nat),
      (es.foldl (stepState coords) st).1 j = st.1 j + netCover coords es j := by
  intro es
  induction es with
  | nil =>
    intro st j
    rw [List.foldl_nil, netCover_nil, add_zero]
  | cons e es ih =>
    intro st j
    rw [List.foldl_cons, ih, stepState_cover, netCover_cons]
    ring

theorem foldl_stepState_GoodLen (coords : List ℚ) :
    ∀ (es : List Ev) (st : (Nat → Int) × (Nat → ℚ)),
      GoodLen coords st.1 st.2 (coords.length + 1) 1 0 ((coords.length : Int) - 2) →
      GoodLen coords (es.foldl (stepState coords) st).1 (es.foldl (stepState coords) st).2
        (coords.length + 1) 1 0 ((coords.length : Int) - 2) := by
  intro es
  induction es with
  | nil => intro st hg; exact hg
  | cons e es ih =>
    intro st hg
    rw [List.foldl_cons]
    exact ih _ (stepState_GoodLen coords st e hg)

theorem sweepState_cover (coords : List ℚ) (es : List Ev) (j : Nat) :
    (sweepState coords es).1 j = netCover coords es j := by
  rw [sweepState, foldl_stepState_cover]
  exact zero_add _

theorem sweepState_GoodLen (coords : List ℚ) (es : List Ev) :
    GoodLen coords (sweepState coords es).1 (sweepState coords es).2
      (coords.length + 1) 1 0 ((coords.length : Int) - 2) :=
  foldl_stepState_GoodLen coords es _ (buildAux_GoodLen coords)

/-- Root exactness: under the processed-prefix counts and the cached-length
invariant, the root caches exactly the union length of the light ranges of the
currently active cameras. -/
theorem root_eq_unionLen (d0 d1 l0 l1 : ℚ) (vc : List Cam) (p : ℚ)
    (st : (Nat → Int) × (Nat → ℚ))
    (hwfd : ∀ c ∈ vc, c.dMin ≤ c.dMax)
    (hcov : ∀ j, st.1 j = netCover (uniqueSorted (lightValues l0 l1 vc))
        ((sortEvents (buildEvents d0 d1 vc)).filter (fun e2 => e2.dist ≤ p)) j)
    (hg : GoodLen (uniqueSorted (lightValues l0 l1 vc)) st.1 st.2
        ((uniqueSorted (lightValues l0 l1 vc)).length + 1) 1 0
        (((uniqueSorted (lightValues l0 l1 vc)).length : Int) - 2)) :
    st.2 1 = unionLen (uniqueSorted (lightValues l0 l1 vc))
      ((vc.filter (fun c => c.dMin ≤ p ∧ p < c.dMax)).map (fun c => (c.lMin, c.lMax)))
      0 (((uniqueSorted (lightValues l0 l1 vc)).length : Int) - 2) := by
  set C := uniqueSorted (lightValues l0 l1 vc) with hC
  have hsC : C.Sorted (· < ·) := uniqueSorted_sortedLt _
  have hl0C : l0 ∈ C := (mem_uniqueSorted _ _).2 (List.mem_cons_self _ _)
  have hlen1 : 1 ≤ C.length := List.length_pos.2 (List.ne_nil_of_mem hl0C)
  have hmemC : ∀ c ∈ vc, c.lMin ∈ C ∧ c.lMax ∈ C := by
    intro c hc
    obtain ⟨ha, hb⟩ := mem_lightValues_of_mem l0 l1 vc c hc
    exact ⟨(mem_uniqueSorted _ _).2 ha, (mem_uniqueSorted _ _).2 hb⟩
  have hroot : st.2 1 = specLen C st.1 (C.length + 1) 1 0 ((C.length : Int) - 2) :=
    hg 1 0 ((C.length : Int) - 2) (TNode.refl 1 0 _)
  have hst1 : st.1 = sumCover (activeQ C vc p) (C.length + 1) 1 0 ((C.length : Int) - 2) :=
    funext fun j => by
      rw [hcov j, hC, netCover_filter_sorted d0 d1 _ vc p hwfd j]
  rw [hroot, specLen_eq_sum C st.1 (C.length + 1) 1 0 ((C.length : Int) - 2)
    (by omega) (by omega)]
  unfold unionLen
  apply Finset.sum_congr rfl
  intro j hj
  have hjm := Finset.mem_Icc.1 hj
  have hpciff : (pathCov st.1 (C.length + 1) 1 0 ((C.length : Int) - 2) j = true ↔
      elemCov C ((vc.filter (fun c => c.dMin ≤ p ∧ p < c.dMax)).map
        (fun c => (c.lMin, c.lMax))) j) := by
    rw [hst1, pathCov_sumCover (activeQ C vc p) (C.length + 1) 1 0 ((C.length : Int) - 2) j
      le_rfl hjm.1 hjm.2 (by omega)]
    unfold elemCov activeQ
    constructor
    · rintro ⟨q, hq, hq1, hq2⟩
      obtain ⟨c, hcf, rfl⟩ := List.mem_map.1 hq
      have hcm : c ∈ vc := (List.mem_filter.1 hcf).1
      obtain ⟨hm1, hm2⟩ := hmemC c hcm
      dsimp only at hq1 hq2
      refine ⟨(c.lMin, c.lMax), List.mem_map_of_mem _ hcf, ?_, ?_⟩
      · have := coordAt_le_coordAt C hsC (lightIdx C c.lMin) j
          (lightIdx_nonneg _ _) hq1 (by omega)
        rw [coordAt_lightIdx C _ hm1] at this
        exact this
      · have := coordAt_le_coordAt C hsC (j + 1) (lightIdx C c.lMax)
          (by omega) (by omega) (lightIdx_lt_length C _ hm2)
        rw [coordAt_lightIdx C _ hm2] at this
        exact this
    · rintro ⟨r, hr, h1, h2⟩
      obtain ⟨c, hcf, rfl⟩ := List.mem_map.1 hr
      have hcm : c ∈ vc := (List.mem_filter.1 hcf).1
      obtain ⟨hm1, hm2⟩ := hmemC c hcm
      dsimp only at h1 h2
      refine ⟨(lightIdx C c.lMin, lightIdx C c.lMax - 1),
        List.mem_map_of_mem _ hcf, ?_, ?_⟩
      · have ha : coordAt C (lightIdx C c.lMin) ≤ coordAt C j := by
          rw [coordAt_lightIdx C _ hm1]
          exact h1
        exact (coordAt_le_iff C hsC _ _ (lightIdx_nonneg _ _)
          (lightIdx_lt_length C _ hm1) hjm.1 (by omega)).1 ha
      · have hb : coordAt C (j + 1) ≤ coordAt C (lightIdx C c.lMax) := by
          rw [coordAt_lightIdx C _ hm2]
          exact h2
        have := (coordAt_le_iff C hsC _ _ (by omega) (by omega) (lightIdx_nonneg _ _)
          (lightIdx_lt_length C _ hm2)).1 hb
        omega
  rw [if_congr hpciff rfl rfl]

/-- C8 (amended): at every sweep position `p` (the state after processing all
events with distance at most `p`), every node's count is the sum of the
canonical-decomposition indicators of the currently open (active) camera
envelopes, the recompute rule holds at every tree node, and the ROOT's cached
length — the value `getCoveredLength()` returns — equals the exact union length
of the active envelopes' light ranges.  (Exactness at every node, as originally
claimed, fails: see the counterexample.) -/
theorem segment_tree_invariant (d0 d1 l0 l1 : ℚ) (cams : List Cam) (p : ℚ)
    (hd : d0 ≤ d1) (hl : l0 ≤ l1) (hwf : ∀ c ∈ cams, c.WF) :
    (∀ j, (sweepState (uniqueSorted (lightValues l0 l1 (validCams d0 d1 l0 l1 cams)))
        ((sortEvents (buildEvents d0 d1 (validCams d0 d1 l0 l1 cams))).filter
          (fun e2 => e2.dist ≤ p))).1 j =
      sumCover (activeQ (uniqueSorted (lightValues l0 l1 (validCams d0 d1 l0 l1 cams)))
          (validCams d0 d1 l0 l1 cams) p)
        ((uniqueSorted (lightValues l0 l1 (validCams d0 d1 l0 l1 cams))).length + 1) 1 0
        (((uniqueSorted (lightValues l0 l1 (validCams d0 d1 l0 l1 cams))).length : Int) - 2)
        j) ∧
    GoodLen (uniqueSorted (lightValues l0 l1 (validCams d0 d1 l0 l1 cams)))
      (sweepState (uniqueSorted (lightValues l0 l1 (validCams d0 d1 l0 l1 cams)))
        ((sortEvents (buildEvents d0 d1 (validCams d0 d1 l0 l1 cams))).filter
          (fun e2 => e2.dist ≤ p))).1
      (sweepState (uniqueSorted (lightValues l0 l1 (validCams d0 d1 l0 l1 cams)))
        ((sortEvents (buildEvents d0 d1 (validCams d0 d1 l0 l1 cams))).filter
          (fun e2 => e2.dist ≤ p))).2
      ((uniqueSorted (lightValues l0 l1 (validCams d0 d1 l0 l1 cams))).length + 1) 1 0
      (((uniqueSorted (lightValues l0 l1 (validCams d0 d1 l0 l1 cams))).length : Int) - 2) ∧
    (sweepState (uniqueSorted (lightValues l0 l1 (validCams d0 d1 l0 l1 cams)))
        ((sortEvents (buildEvents d0 d1 (validCams d0 d1 l0 l1 cams))).filter
          (fun e2 => e2.dist ≤ p))).2 1 =
      unionLen (uniqueSorted (lightValues l0 l1 (validCams d0 d1 l0 l1 cams)))
        (((validCams d0 d1 l0 l1 cams).filter (fun c => c.dMin ≤ p ∧ p < c.dMax)).map
          (fun c => (c.lMin, c.lMax)))
        0 (((uniqueSorted (lightValues l0 l1 (validCams d0 d1 l0 l1 cams))).length : Int) - 2) := by
  have hwfd : ∀ c ∈ validCams d0 d1 l0 l1 cams, c.dMin ≤ c.dMax := fun c hc =>
    (validCams_wf d0 d1 l0 l1 cams hd hl hwf c hc).2.1
  have hcov : ∀ j, (sweepState (uniqueSorted (lightValues l0 l1 (validCams d0 d1 l0 l1 cams)))
      ((sortEvents (buildEvents d0 d1 (validCams d0 d1 l0 l1 cams))).filter
        (fun e2 => e2.dist ≤ p))).1 j =
      netCover (uniqueSorted (lightValues l0 l1 (validCams d0 d1 l0 l1 cams)))
        ((sortEvents (buildEvents d0 d1 (validCams d0 d1 l0 l1 cams))).filter
          (fun e2 => e2.dist ≤ p)) j :=
    fun j => sweepState_cover _ _ j
  have hg := sweepState_GoodLen (uniqueSorted (lightValues l0 l1 (validCams d0 d1 l0 l1 cams)))
    ((sortEvents (buildEvents d0 d1 (validCams d0 d1 l0 l1 cams))).filter
      (fun e2 => e2.dist ≤ p))
  refine ⟨?_, hg, ?_⟩
  · intro j
    rw [hcov j, netCover_filter_sorted d0 d1 _ _ p hwfd j]
  · exact root_eq_unionLen d0 d1 l0 l1 (validCams d0 d1 l0 l1 cams) p _ hwfd hcov hg

theorem segment_tree_invariant_witness :
    (0 : ℚ) ≤ 2 ∧ (0 : ℚ) ≤ 2 ∧ (∀ c ∈ [Cam.mk 0 2 0 1], c.WF) ∧
    ((∀ j, (sweepState (uniqueSorted (lightValues 0 2 (validCams 0 2 0 2 [Cam.mk 0 2 0 1])))
        ((sortEvents (buildEvents 0 2 (validCams 0 2 0 2 [Cam.mk 0 2 0 1]))).filter
          (fun e2 => e2.dist ≤ 1))).1 j =
      sumCover (activeQ (uniqueSorted (lightValues 0 2 (validCams 0 2 0 2 [Cam.mk 0 2 0 1])))
          (validCams 0 2 0 2 [Cam.mk 0 2 0 1]) 1)
        ((uniqueSorted (lightValues 0 2 (validCams 0 2 0 2 [Cam.mk 0 2 0 1]))).length + 1) 1 0
        (((uniqueSorted (lightValues 0 2 (validCams 0 2 0 2 [Cam.mk 0 2 0 1]))).length : Int) - 2)
        j) ∧
    GoodLen (uniqueSorted (lightValues 0 2 (validCams 0 2 0 2 [Cam.mk 0 2 0 1])))
      (sweepState (uniqueSorted (lightValues 0 2 (validCams 0 2 0 2 [Cam.mk 0 2 0 1])))
        ((sortEvents (buildEvents 0 2 (validCams 0 2 0 2 [Cam.mk 0 2 0 1]))).filter
          (fun e2 => e2.dist ≤ 1))).1
      (sweepState (uniqueSorted (lightValues 0 2 (validCams 0 2 0 2 [Cam.mk 0 2 0 1])))
        ((sortEvents (buildEvents 0 2 (validCams 0 2 0 2 [Cam.mk 0 2 0 1]))).filter
          (fun e2 => e2.dist ≤ 1))).2
      ((uniqueSorted (lightValues 0 2 (validCams 0 2 0 2 [Cam.mk 0 2 0 1]))).length + 1) 1 0
      (((uniqueSorted (lightValues 0 2 (validCams 0 2 0 2 [Cam.mk 0 2 0 1]))).length : Int) - 2) ∧
    (sweepState (uniqueSorted (lightValues 0 2 (validCams 0 2 0 2 [Cam.mk 0 2 0 1])))
        ((sortEvents (buildEvents 0 2 (validCams 0 2 0 2 [Cam.mk 0 2 0 1]))).filter
          (fun e2 => e2.dist ≤ 1))).2 1 =
      unionLen (uniqueSorted (lightValues 0 2 (validCams 0 2 0 2 [Cam.mk 0 2 0 1])))
        (((validCams 0 2 0 2 [Cam.mk 0 2 0 1]).filter (fun c => c.dMin ≤ 1 ∧ (1:ℚ) < c.dMax)).map
          (fun c => (c.lMin, c.lMax)))
        0 (((uniqueSorted (lightValues 0 2 (validCams 0 2 0 2 [Cam.mk 0 2 0 1]))).length : Int) - 2)) :=
  ⟨by norm_num, by norm_num, by decide,
    segment_tree_invariant 0 2 0 2 [Cam.mk 0 2 0 1] 1 (by norm_num) (by norm_num) (by decide)⟩

/-! ### Order irrelevance of the input list -/

theorem bool_eq_of_iff {a b : Bool} (h : a = true ↔ b = true) : a = b := by
  cases a <;> cases b <;> simp_all

theorem validCams_perm (d0 d1 l0 l1 : ℚ) {L L' : List Cam} (h : L.Perm L') :
    (validCams d0 d1 l0 l1 L).Perm (validCams d0 d1 l0 l1 L') :=
  (h.filter _).map _

theorem uniqueSorted_perm_eq {vals vals' : List ℚ} (h : vals.Perm vals') :
    uniqueSorted vals = uniqueSorted vals' :=
  List.eq_of_perm_of_sorted
    (((List.perm_insertionSort _ _).trans h.dedup).trans (List.perm_insertionSort _ _).symm)
    (uniqueSorted_sorted _) (uniqueSorted_sorted _)

theorem lightValues_perm (l0 l1 : ℚ) {vc vc' : List Cam} (h : vc.Perm vc') :
    (lightValues l0 l1 vc).Perm (lightValues l0 l1 vc') := by
  unfold lightValues
  exact ((h.flatMap_right _).cons _).cons _

theorem buildEvents_perm (d0 d1 : ℚ) {vc vc' : List Cam} (h : vc.Perm vc') :
    (buildEvents d0 d1 vc).Perm (buildEvents d0 d1 vc') := by
  unfold buildEvents
  exact ((h.flatMap_right _).cons _).cons _

theorem sortEvents_dist_eq {es es' : List Ev} (h : es.Perm es') :
    (sortEvents es).map Ev.dist = (sortEvents es').map Ev.dist := by
  have hs1 : ((sortEvents es).map Ev.dist).Sorted (· ≤ ·) := by
    rw [List.Sorted, List.pairwise_map]
    exact sortEvents_sorted es
  have hs2 : ((sortEvents es').map Ev.dist).Sorted (· ≤ ·) := by
    rw [List.Sorted, List.pairwise_map]
    exact sortEvents_sorted es'
  exact List.eq_of_perm_of_sorted
    ((((sortEvents_perm es).trans h).trans (sortEvents_perm es').symm).map _) hs1 hs2

theorem headD_dist_eq {es es' : List Ev} (hne : es ≠ []) (hne' : es' ≠ [])
    (h : es.map Ev.dist = es'.map Ev.dist) :
    (es.headD ⟨0, 0, 0, 0⟩).dist = (es'.headD ⟨0, 0, 0, 0⟩).dist := by
  obtain ⟨e, es, rfl⟩ := List.exists_cons_of_ne_nil hne
  obtain ⟨e2, es', rfl⟩ := List.exists_cons_of_ne_nil hne'
  rw [List.map_cons, List.map_cons] at h
  rw [List.headD_cons, List.headD_cons]
  injection h

theorem validCams_dist_bounds (d0 d1 l0 l1 : ℚ) (cams : List Cam) (hd : d0 ≤ d1) :
    ∀ c ∈ validCams d0 d1 l0 l1 cams,
      d0 ≤ c.dMin ∧ c.dMin ≤ d1 ∧ d0 ≤ c.dMax ∧ c.dMax ≤ d1 := by
  intro c hc
  unfold validCams at hc
  obtain ⟨c1, hc1f, rfl⟩ := List.mem_map.1 hc
  have hov2 : c1.dMax ≥ d0 ∧ c1.dMin ≤ d1 := by
    have := (List.mem_filter.1 hc1f).2
    unfold camOverlaps at this
    simp only [ge_iff_le, decide_eq_true_eq, Bool.decide_and, Bool.and_eq_true] at this
    exact ⟨this.1, this.2.1⟩
  unfold clipCam
  exact ⟨le_max_left _ _, max_le hd hov2.2, le_min hd hov2.1, min_le_left _ _⟩

/-- C6: the order of the input rectangle sequence is irrelevant: for every
target and every pair of rectangle lists that are permutations of each other,
`coverage_check` returns the same boolean. -/
theorem coverage_check_perm (d0 d1 l0 l1 : ℚ) (L L' : List Cam) (h : L.Perm L') :
    canCoverAll d0 d1 l0 l1 L = canCoverAll d0 d1 l0 l1 L' := by
  by_cases hdeg : d0 = d1 ∧ l0 = l1
  · obtain ⟨h1, h2⟩ := hdeg
    subst h1
    subst h2
    rw [canCoverAll_deg, canCoverAll_deg]
  · by_cases hL : L = []
    · subst hL
      have hL2 : L' = [] := List.length_eq_zero.1 h.length_eq.symm
      rw [hL2]
    · have hL' : L' ≠ [] := by
        intro he
        subst he
        exact hL (List.length_eq_zero.1 h.length_eq)
      have hvcp : (validCams d0 d1 l0 l1 L).Perm (validCams d0 d1 l0 l1 L') :=
        validCams_perm d0 d1 l0 l1 h
      by_cases hvc : validCams d0 d1 l0 l1 L = []
      · have hvc2 : validCams d0 d1 l0 l1 L' = [] := by
          have := hvcp
          rw [hvc] at this
          exact List.length_eq_zero.1 this.length_eq.symm
        rw [canCoverAll_vcnil d0 d1 l0 l1 L hdeg hvc,
          canCoverAll_vcnil d0 d1 l0 l1 L' hdeg hvc2]
      · have hvc' : validCams d0 d1 l0 l1 L' ≠ [] := by
          intro he
          apply hvc
          have := hvcp
          rw [he] at this
          exact List.length_eq_zero.1 this.length_eq
        have hcoords : uniqueSorted (lightValues l0 l1 (validCams d0 d1 l0 l1 L)) =
            uniqueSorted (lightValues l0 l1 (validCams d0 d1 l0 l1 L')) :=
          uniqueSorted_perm_eq (lightValues_perm l0 l1 hvcp)
        have hevp : (buildEvents d0 d1 (validCams d0 d1 l0 l1 L)).Perm
            (buildEvents d0 d1 (validCams d0 d1 l0 l1 L')) :=
          buildEvents_perm d0 d1 hvcp
        rw [canCoverAll_eq_sweep d0 d1 l0 l1 L hdeg hL hvc,
          canCoverAll_eq_sweep d0 d1 l0 l1 L' hdeg hL' hvc']
        rw [← hcoords]
        set coords := uniqueSorted (lightValues l0 l1 (validCams d0 d1 l0 l1 L))
          with hcoordsdef
        set S := sortEvents (buildEvents d0 d1 (validCams d0 d1 l0 l1 L)) with hSdef
        set S2 := sortEvents (buildEvents d0 d1 (validCams d0 d1 l0 l1 L')) with hS2def
        have hSne : S ≠ [] := by
          rw [hSdef]
          exact sortEvents_build_ne_nil d0 d1 _
        have hSne2 : S2 ≠ [] := by
          rw [hS2def]
          exact sortEvents_build_ne_nil d0 d1 _
        have hSp : S.Perm S2 := by
          rw [hSdef, hS2def]
          exact (sortEvents_perm _).trans (hevp.trans (sortEvents_perm _).symm)
        have hdists : S.map Ev.dist = S2.map Ev.dist := by
          rw [hSdef, hS2def]
          exact sortEvents_dist_eq hevp
        rcases lt_trichotomy d0 d1 with hdlt | hdeq | hdgt
        · rcases le_or_lt l1 l0 with hle | hllt
          · have hl0m : l0 ∈ coords := by
              rw [hcoordsdef]
              exact (mem_uniqueSorted _ _).2 (List.mem_cons_self _ _)
            have hsC : coords.Sorted (· < ·) := by
              rw [hcoordsdef]
              exact uniqueSorted_sortedLt _
            exact (sweep_nonpos_total d0 d1 (l1 - l0) coords hsC
                (List.ne_nil_of_mem hl0m) (by linarith) S ((S.headD ⟨0, 0, 0, 0⟩).dist)
                ((fun _ => 0), buildAux (coords.length + 1) (fun _ => 0) 1 0
                  ((coords.length : Int) - 2)) (buildAux_GoodLen coords)).trans
              (sweep_nonpos_total d0 d1 (l1 - l0) coords hsC
                (List.ne_nil_of_mem hl0m) (by linarith) S2 ((S2.headD ⟨0, 0, 0, 0⟩).dist)
                ((fun _ => 0), buildAux (coords.length + 1) (fun _ => 0) 1 0
                  ((coords.length : Int) - 2)) (buildAux_GoodLen coords)).symm
          · apply bool_eq_of_iff
            have hdb := validCams_dist_bounds d0 d1 l0 l1 L (le_of_lt hdlt)
            have hdb2 := validCams_dist_bounds d0 d1 l0 l1 L' (le_of_lt hdlt)
            have hprev1 : ((S.headD ⟨0, 0, 0, 0⟩).dist) = d0 := by
              rw [hSdef]
              exact sortEvents_head_dist d0 d1 _ (le_of_lt hdlt) hdb
            have hprev2 : ((S2.headD ⟨0, 0, 0, 0⟩).dist) = d0 := by
              rw [hS2def]
              exact sortEvents_head_dist d0 d1 _ (le_of_lt hdlt) hdb2
            have hdS1 : ∀ e ∈ S, d0 ≤ e.dist ∧ e.dist ≤ d1 := by
              rw [hSdef]
              exact fun e he => buildEvents_dist_bounds d0 d1 _ (le_of_lt hdlt) hdb e
                ((sortEvents_perm _).subset he)
            have hdS2 : ∀ e ∈ S2, d0 ≤ e.dist ∧ e.dist ≤ d1 := by
              rw [hS2def]
              exact fun e he => buildEvents_dist_bounds d0 d1 _ (le_of_lt hdlt) hdb2 e
                ((sortEvents_perm _).subset he)
            have hsort1 : S.Pairwise (fun a b => a.dist ≤ b.dist) := by
              rw [hSdef]
              exact sortEvents_sorted _
            have hsort2 : S2.Pairwise (fun a b => a.dist ≤ b.dist) := by
              rw [hS2def]
              exact sortEvents_sorted _
            have hQc : ∀ (p : ℚ) (ν : Nat),
                netCover coords (S2.filter (fun e2 => e2.dist ≤ p)) ν =
                netCover coords (S.filter (fun e2 => e2.dist ≤ p)) ν :=
              fun p ν => netCover_perm coords (hSp.symm.filter _) ν
            have hm1 := sweepOKP_iff_adj d0 d1 (l1 - l0) coords
              (fun p => specLen coords (netCover coords (S.filter (fun e2 => e2.dist ≤ p)))
                (coords.length + 1) 1 0 ((coords.length : Int) - 2) ≥ l1 - l0)
              S
              (fun p st hp0 hp1 hcov hg => by
                rw [hg 1 0 ((coords.length : Int) - 2) (TNode.refl 1 0 _),
                  specLen_congr coords (coords.length + 1) 1 0 ((coords.length : Int) - 2)
                    (fun ν hν => hcov ν)])
              hsort1 hdS1 S [] ((S.headD ⟨0, 0, 0, 0⟩).dist)
              ((fun _ => 0), buildAux (coords.length + 1) (fun _ => 0) 1 0
                ((coords.length : Int) - 2))
              (List.nil_append S).symm (by intro e he; cases he)
              (by rw [hprev1]; intro e he; exact (hdS1 e he).1)
              (by rw [hprev1]) (by rw [hprev1]; exact le_of_lt hdlt)
              (fun j => rfl) (buildAux_GoodLen coords)
            have hm2 := sweepOKP_iff_adj d0 d1 (l1 - l0) coords
              (fun p => specLen coords (netCover coords (S.filter (fun e2 => e2.dist ≤ p)))
                (coords.length + 1) 1 0 ((coords.length : Int) - 2) ≥ l1 - l0)
              S2
              (fun p st hp0 hp1 hcov hg => by
                rw [hg 1 0 ((coords.length : Int) - 2) (TNode.refl 1 0 _),
                  specLen_congr coords (coords.length + 1) 1 0 ((coords.length : Int) - 2)
                    (fun ν hν => hcov ν),
                  specLen_congr coords (coords.length + 1) 1 0 ((coords.length : Int) - 2)
                    (fun ν hν => hQc p ν)])
              hsort2 hdS2 S2 [] ((S2.headD ⟨0, 0, 0, 0⟩).dist)
              ((fun _ => 0), buildAux (coords.length + 1) (fun _ => 0) 1 0
                ((coords.length : Int) - 2))
              (List.nil_append S2).symm (by intro e he; cases he)
              (by rw [hprev2]; intro e he; exact (hdS2 e he).1)
              (by rw [hprev2]) (by rw [hprev2]; exact le_of_lt hdlt)
              (fun j => rfl) (buildAux_GoodLen coords)
            rw [sweep_eq_true_iff, sweep_eq_true_iff, hm1, hm2, hprev1, hprev2, hdists]
        · subst hdeq
          have hdb := validCams_dist_bounds d0 d0 l0 l1 L le_rfl
          have hdb2 := validCams_dist_bounds d0 d0 l0 l1 L' le_rfl
          have hprev1 : ((S.headD ⟨0, 0, 0, 0⟩).dist) = d0 := by
            rw [hSdef]
            exact sortEvents_head_dist d0 d0 _ le_rfl hdb
          have hprev2 : ((S2.headD ⟨0, 0, 0, 0⟩).dist) = d0 := by
            rw [hS2def]
            exact sortEvents_head_dist d0 d0 _ le_rfl hdb2
          have hall1 : ∀ e ∈ S, e.dist = ((S.headD ⟨0, 0, 0, 0⟩).dist) := by
            rw [hSdef, hprev1]
            intro e he
            have := buildEvents_dist_bounds d0 d0 _ le_rfl hdb e
              ((sortEvents_perm _).subset he)
            linarith [this.1, this.2]
          have hall2 : ∀ e ∈ S2, e.dist = ((S2.headD ⟨0, 0, 0, 0⟩).dist) := by
            rw [hS2def, hprev2]
            intro e he
            have := buildEvents_dist_bounds d0 d0 _ le_rfl hdb2 e
              ((sortEvents_perm _).subset he)
            linarith [this.1, this.2]
          exact (sweep_const d0 d0 (l1 - l0) coords S ((S.headD ⟨0, 0, 0, 0⟩).dist)
              (fun _ => 0) (buildAux (coords.length + 1) (fun _ => 0) 1 0
                ((coords.length : Int) - 2)) hall1).trans
            (sweep_const d0 d0 (l1 - l0) coords S2 ((S2.headD ⟨0, 0, 0, 0⟩).dist)
              (fun _ => 0) (buildAux (coords.length + 1) (fun _ => 0) 1 0
                ((coords.length : Int) - 2)) hall2).symm
        · exact (sweep_d1_lt_d0 d0 d1 (l1 - l0) coords hdgt S ((S.headD ⟨0, 0, 0, 0⟩).dist)
              (fun _ => 0) (buildAux (coords.length + 1) (fun _ => 0) 1 0
                ((coords.length : Int) - 2))).trans
            (sweep_d1_lt_d0 d0 d1 (l1 - l0) coords hdgt S2 ((S2.headD ⟨0, 0, 0, 0⟩).dist)
              (fun _ => 0) (buildAux (coords.length + 1) (fun _ => 0) 1 0
                ((coords.length : Int) - 2))).symm

theorem coverage_check_perm_witness :
    ([Cam.mk 0 2 0 1, Cam.mk 0 2 1 2] : List Cam).Perm [Cam.mk 0 2 1 2, Cam.mk 0 2 0 1] ∧
    canCoverAll 0 2 0 2 [Cam.mk 0 2 0 1, Cam.mk 0 2 1 2] =
      canCoverAll 0 2 0 2 [Cam.mk 0 2 1 2, Cam.mk 0 2 0 1] :=
  ⟨List.Perm.swap _ _ _,
    coverage_check_perm 0 2 0 2 [Cam.mk 0 2 0 1, Cam.mk 0 2 1 2]
      [Cam.mk 0 2 1 2, Cam.mk 0 2 0 1] (List.Perm.swap _ _ _)⟩

/-- C5 (amended): with every rectangle of the base list well-formed (and the
appended rectangle well-formed), appending a rectangle never flips a `true`
result to `false`, for every target.  (With an ill-formed rectangle in the base
list the property fails: see the counterexample.) -/
theorem coverage_check_monotone (d0 d1 l0 l1 : ℚ) (L : List Cam) (r : Cam)
    (hwfL : ∀ c ∈ L, c.WF) (hwfr : r.WF)
    (ht : canCoverAll d0 d1 l0 l1 L = true) :
    canCoverAll d0 d1 l0 l1 (L ++ [r]) = true := by
  by_cases hdeg : d0 = d1 ∧ l0 = l1
  · obtain ⟨h1, h2⟩ := hdeg
    subst h1
    subst h2
    exact canCoverAll_deg _ _ _
  · have hL : L ≠ [] := by
      intro he
      subst he
      rw [canCoverAll_vcnil d0 d1 l0 l1 [] hdeg rfl] at ht
      exact absurd ht Bool.false_ne_true
    have hvc : validCams d0 d1 l0 l1 L ≠ [] := canCoverAll_true_vc_ne d0 d1 l0 l1 L hdeg ht
    have hL2 : (L ++ [r]) ≠ [] := by simp
    have hvcapp : validCams d0 d1 l0 l1 (L ++ [r]) =
        validCams d0 d1 l0 l1 L ++ validCams d0 d1 l0 l1 [r] := by
      unfold validCams
      rw [List.filter_append, List.map_append]
    have hvc2 : validCams d0 d1 l0 l1 (L ++ [r]) ≠ [] := by
      rw [hvcapp]
      intro he
      exact hvc (List.append_eq_nil.1 he).1
    rcases lt_trichotomy d0 d1 with hdlt | hdeq | hdgt
    · rcases le_or_lt l1 l0 with hle | hllt
      · rw [canCoverAll_eq_sweep d0 d1 l0 l1 (L ++ [r]) hdeg hL2 hvc2]
        have hl0m : l0 ∈ uniqueSorted (lightValues l0 l1 (validCams d0 d1 l0 l1 (L ++ [r]))) :=
          (mem_uniqueSorted _ _).2 (List.mem_cons_self _ _)
        exact sweep_nonpos_total d0 d1 (l1 - l0)
          (uniqueSorted (lightValues l0 l1 (validCams d0 d1 l0 l1 (L ++ [r]))))
          (uniqueSorted_sortedLt _) (List.ne_nil_of_mem hl0m) (by linarith)
          (sortEvents (buildEvents d0 d1 (validCams d0 d1 l0 l1 (L ++ [r]))))
          (((sortEvents (buildEvents d0 d1 (validCams d0 d1 l0 l1 (L ++ [r])))).headD
            ⟨0, 0, 0, 0⟩).dist)
          ((fun _ => 0),
            buildAux
              ((uniqueSorted (lightValues l0 l1 (validCams d0 d1 l0 l1 (L ++ [r])))).length + 1)
              (fun _ => 0) 1 0
              (((uniqueSorted
                (lightValues l0 l1 (validCams d0 d1 l0 l1 (L ++ [r])))).length : Int) - 2))
          (buildAux_GoodLen _)
      · have hwfall : ∀ c ∈ L ++ [r], c.WF := by
          intro c hc
          rcases List.mem_append.1 hc with h1 | h2
          · exact hwfL c h1
          · rw [List.mem_singleton] at h2
            subst h2
            exact hwfr
        rw [canCoverAll_iff_covers d0 d1 l0 l1 (L ++ [r]) hdlt hllt hwfall]
        rw [canCoverAll_iff_covers d0 d1 l0 l1 L hdlt hllt hwfL] at ht
        intro x y hx0 hx1 hy0 hy1
        obtain ⟨c, hc, hcov⟩ := ht x y hx0 hx1 hy0 hy1
        exact ⟨c, List.mem_append_left _ hc, hcov⟩
    · subst hdeq
      rw [canCoverAll_eq_sweep d0 d0 l0 l1 (L ++ [r]) hdeg hL2 hvc2]
      have hdb := validCams_dist_bounds d0 d0 l0 l1 (L ++ [r]) le_rfl
      have hprev := sortEvents_head_dist d0 d0 (validCams d0 d0 l0 l1 (L ++ [r])) le_rfl hdb
      apply sweep_const
      intro e he
      rw [hprev]
      have := buildEvents_dist_bounds d0 d0 _ le_rfl hdb e ((sortEvents_perm _).subset he)
      linarith [this.1, this.2]
    · rw [canCoverAll_eq_sweep d0 d1 l0 l1 (L ++ [r]) hdeg hL2 hvc2]
      exact sweep_d1_lt_d0 d0 d1 (l1 - l0) _ hdgt _ _ _ _

theorem coverage_check_monotone_witness :
    (∀ c ∈ [Cam.mk 0 1 0 1], c.WF) ∧ (Cam.mk 0 1 0 2).WF ∧
    canCoverAll 0 1 0 1 [Cam.mk 0 1 0 1] = true ∧
    canCoverAll 0 1 0 1 ([Cam.mk 0 1 0 1] ++ [Cam.mk 0 1 0 2]) = true :=
  ⟨by decide, by decide, by decide,
    coverage_check_monotone 0 1 0 1 [Cam.mk 0 1 0 1] (Cam.mk 0 1 0 2)
      (by decide) (by decide) (by decide)⟩
